import Mathlib

/-!
Verification of the SARIF result-inspection pipeline (`result_inspector.py`)
and the interactive triage loop (`gemini.py`).

The Python source is shallowly embedded: dictionaries coming from the SARIF
file become structures with `Option`-typed fields, the mutable resolution
cache of `SourceArchive` becomes explicit state passing, a Python exception
becomes an absent (`none` / `Except.error`) result, and machine integers are
`Int` (Python integers are unbounded, so no wrap-around modelling is needed).
-/

namespace ResultInspector

/-! ## SourceArchive

An archive is modelled as its listing: each zip entry name paired with the
decoded lines of that entry (the result of `_read_lines`, i.e. UTF-8 decode
with replacement followed by `splitlines`).  `cache` is the `_resolve`
memoisation dictionary, an association list with most recent insertion first.
-/

structure SourceArchive where
  entries : List (String × List String)
  cache : List (String × Option String)
deriving Repr

/-- One comparison step of Python's `min(xs, key=len)`: a later element
replaces the current minimum only when strictly shorter, so ties keep the
earliest element. -/
def shorterOf (acc y : String) : String := if y.length < acc.length then y else acc

/-- Python's `min(xs, key=len)` on a non-empty list; `none` on `[]`,
mirroring `min(matches, key=len) if matches else None`. -/
def pyMinByLen : List String → Option String
  | [] => none
  | x :: xs => some (xs.foldl shorterOf x)

/-- `uri in self._cache` / `self._cache[uri]` on the association list. -/
def lookupCache : List (String × Option String) → String → Option (Option String)
  | [], _ => none
  | (k, v) :: rest, u => if k = u then some v else lookupCache rest u

/-- Python `name.endswith(uri)`: `uri`'s characters are a suffix of
`name`'s. -/
def pyEndsWith (name uri : String) : Bool := uri.data.isSuffixOf name.data

/-- The uncached body of `SourceArchive._resolve`:
`matches = [name for name in namelist if name.endswith(uri)]` followed by
`min(matches, key=len) if matches else None`. -/
def resolvePure (names : List String) (uri : String) : Option String :=
  pyMinByLen (names.filter (fun n => pyEndsWith n uri))

/-- `SourceArchive._resolve`, with the cache threaded explicitly. -/
def SourceArchive.resolve (a : SourceArchive) (uri : String) :
    Option String × SourceArchive :=
  match lookupCache a.cache uri with
  | some r => (r, a)
  | none =>
    let entry := resolvePure (a.entries.map Prod.fst) uri
    (entry, { a with cache := (uri, entry) :: a.cache })

/-- `SourceArchive._read_lines`: the decoded line list of an entry.  The
entry handed to it always comes from `_resolve`, hence is present. -/
def SourceArchive.readLines (a : SourceArchive) (entry : String) : List String :=
  match a.entries.lookup entry with
  | some ls => ls
  | none => []

/-- `f"{lineno + 1:>5}"`-style right alignment in a field of width 5. -/
def padNum (n : Int) : String :=
  let s := toString n
  String.mk (List.replicate (5 - s.length) ' ') ++ s

/-- The snippet line header `f"{lineno + 1:>5}: "`. -/
def lineNoFmt (n : Int) : String := padNum n ++ ": "

/-- Python `str.rstrip("\n")`: drop every trailing newline character. -/
def rstripNl (s : String) : String :=
  String.mk ((s.data.reverse.dropWhile (fun c => c = '\n')).reverse)

/-- `index = max(line - 1, 0)` in `read_context`. -/
def targetIndex (line : Int) : Int := max (line - 1) 0

/-- `start = max(index - context, 0)` in `read_context`. -/
def windowStart (line ctx : Int) : Int := max (targetIndex line - ctx) 0

/-- `end = min(index + context, len(lines) - 1)` in `read_context`. -/
def windowEnd (line ctx : Int) (n : Nat) : Int := min (targetIndex line + ctx) ((n : Int) - 1)

/-- The `snippet_lines.append(prefix + ...)` accumulation over the window
indices.  Indexing `lines[lineno]` is partial in Python; an out-of-range
access (an `IndexError`) is modelled as `none`. -/
def collectLines (lines : List String) : List Nat → Option (List String)
  | [] => some []
  | i :: is =>
    ((lines[i]?).map (fun t => lineNoFmt ((i : Int) + 1) ++ rstripNl t)).bind
      (fun s => (collectLines lines is).map (fun ss => s :: ss))

/-- The body of the `for lineno in range(start, end + 1)` loop plus the final
`"\n".join(snippet_lines)`. -/
def renderSnippet (lines : List String) (s e : Int) : Option String :=
  (collectLines lines (List.range' s.toNat (e + 1 - s).toNat)).map
    (fun ls => String.intercalate "\n" ls)

/-- The dictionary returned by `SourceArchive.read_context`. -/
structure SnippetPayload where
  uri : String
  zip_entry : String
  line : Int
  snippet : String
deriving DecidableEq, Repr

/-- `SourceArchive.read_context`.  `uri`/`line` are the raw optional values
from the SARIF region; `if not uri or not line` is falsiness of `None`, `""`
and `0`.  A `none` first component covers both the explicit `return None`
paths and the (unreachable, see the safety theorem) `IndexError`. -/
def SourceArchive.read_context (a : SourceArchive) (uri : Option String)
    (line : Option Int) (ctx : Int) : Option SnippetPayload × SourceArchive :=
  match uri, line with
  | some u, some l =>
    if u = "" ∨ l = 0 then (none, a)
    else
      match a.resolve u with
      | (none, a') => (none, a')
      | (some entry, a') =>
        let lines := a'.readLines entry
        let s := windowStart l ctx
        let e := windowEnd l ctx lines.length
        match renderSnippet lines s e with
        | none => (none, a')
        | some text =>
          (some { uri := u, zip_entry := entry, line := l, snippet := text }, a')
  | _, _ => (none, a)

/-! ## Location and flow extraction -/

/-- The fields `_location_payload` reads out of a SARIF `physicalLocation`:
`artifactLocation.uri` and the four `region` bounds. -/
structure PhysLoc where
  artifactUri : Option String
  startLine : Option Int
  startColumn : Option Int
  endLine : Option Int
  endColumn : Option Int
deriving DecidableEq, Repr

/-- One element of `result.locations` / `result.relatedLocations`.
`location` is the nested one-level wrapper `_first_physical_location`
unwraps; its outer `Option` is presence of the `"location"` key (as a dict),
the inner one presence of `"physicalLocation"` inside it. -/
structure LocationItem where
  physicalLocation : Option PhysLoc
  location : Option (Option PhysLoc)
deriving DecidableEq, Repr

/-- `_first_physical_location`. -/
def firstPhysicalLocation : List LocationItem → Option PhysLoc
  | [] => none
  | item :: rest =>
    match item.physicalLocation with
    | some p => some p
    | none =>
      match item.location with
      | some (some p) => some p
      | _ => firstPhysicalLocation rest

/-- The dictionary built by `_location_payload`. -/
structure LocationPayload where
  uri : Option String
  start_line : Option Int
  start_column : Option Int
  end_line : Option Int
  end_column : Option Int
  snippet : Option String
deriving DecidableEq, Repr

instance : Inhabited LocationPayload :=
  ⟨{ uri := none, start_line := none, start_column := none, end_line := none,
     end_column := none, snippet := none }⟩

/-- `_location_payload`: `None` in, `None` out; otherwise build the payload,
taking `snippet["snippet"] if snippet else None` from `read_context`. -/
def locationPayload (loc : Option PhysLoc) (a : SourceArchive) (ctx : Int) :
    Option LocationPayload × SourceArchive :=
  match loc with
  | none => (none, a)
  | some l =>
    let s := a.read_context l.artifactUri l.startLine ctx
    (some { uri := l.artifactUri, start_line := l.startLine,
            start_column := l.startColumn, end_line := l.endLine,
            end_column := l.endColumn, snippet := s.1.map (fun p => p.snippet) }, s.2)

/-- The `node["location"]` dictionary of a thread-flow node: the message
text `(loc.get("message") or {}).get("text")` and the physical location. -/
structure FlowNodeLoc where
  msgText : Option String
  physicalLocation : Option PhysLoc
deriving DecidableEq, Repr

/-- One element of `thread["locations"]`; `location` is `node.get("location", {})`
with `none` standing for the missing-key `{}` default. -/
structure FlowNode where
  location : Option FlowNodeLoc
deriving DecidableEq, Repr

structure ThreadFlow where
  locations : List FlowNode
deriving DecidableEq, Repr

structure CodeFlow where
  threadFlows : List ThreadFlow
deriving DecidableEq, Repr

/-- One element of the record's `path` list. -/
structure FlowStep where
  message : Option String
  location : Option LocationPayload
deriving DecidableEq, Repr

/-- The body of the innermost loop of `_code_flow_steps`. -/
def flowNodeStep (a : SourceArchive) (ctx : Int) (node : FlowNode) :
    FlowStep × SourceArchive :=
  let msg := node.location.bind (fun l => l.msgText)
  let phys := node.location.bind (fun l => l.physicalLocation)
  let s := locationPayload phys a ctx
  ({ message := msg, location := s.1 }, s.2)

/-- State-threading `map` over a list, preserving order. -/
def mapState {α β : Type} (f : SourceArchive → α → β × SourceArchive) :
    SourceArchive → List α → List β × SourceArchive
  | a, [] => ([], a)
  | a, x :: xs =>
    let p := f a x
    let q := mapState f p.2 xs
    (p.1 :: q.1, q.2)

/-- `_code_flow_steps`: every flow, then every thread, then every node, in
file order, one step per node. -/
def codeFlowSteps (a : SourceArchive) (ctx : Int) (flows : List CodeFlow) :
    List FlowStep × SourceArchive :=
  let nodes := ((flows.map (fun f => f.threadFlows)).flatten.map (fun t => t.locations)).flatten
  mapState (fun a' n => flowNodeStep a' ctx n) a nodes

/-! ## Records and extraction -/

/-- One SARIF result, restricted to the fields the pipeline reads. -/
structure SarifResult where
  ruleId : Option String
  messageText : Option String
  score : Option Int
  locations : List LocationItem
  relatedLocations : List LocationItem
  codeFlows : List CodeFlow
deriving DecidableEq, Repr

structure SarifRun where
  results : List SarifResult
deriving DecidableEq, Repr

structure Sarif where
  runs : List SarifRun
deriving DecidableEq, Repr

/-- One finding record, exactly the dictionary built in
`extract_context_records` (all seven keys always present). -/
structure Record where
  result_index : Nat
  rule_id : Option String
  message : Option String
  score : Option Int
  sink : Option LocationPayload
  source : Option LocationPayload
  path : List FlowStep
deriving DecidableEq, Repr

/-- The loop body of `extract_context_records` for one result. -/
def buildRecord (a : SourceArchive) (ctx : Int) (idx : Nat) (r : SarifResult) :
    Record × SourceArchive :=
  let s1 := locationPayload (firstPhysicalLocation r.locations) a ctx
  let s2 := locationPayload (firstPhysicalLocation r.relatedLocations) s1.2 ctx
  let s3 := codeFlowSteps s2.2 ctx r.codeFlows
  ({ result_index := idx, rule_id := r.ruleId, message := r.messageText,
     score := r.score, sink := s1.1, source := s2.1, path := s3.1 }, s3.2)

/-- `limit is not None and idx >= limit`. -/
def limitReached (limit : Option Int) (idx : Nat) : Bool :=
  match limit with
  | none => false
  | some l => (idx : Int) ≥ l

/-- The `for idx, result in enumerate(results)` loop with its `break`. -/
def extractLoop (ctx : Int) (limit : Option Int) :
    SourceArchive → Nat → List SarifResult → List Record × SourceArchive
  | a, _, [] => ([], a)
  | a, idx, r :: rs =>
    if limitReached limit idx then ([], a)
    else
      let p := buildRecord a ctx idx r
      let q := extractLoop ctx limit p.2 (idx + 1) rs
      (p.1 :: q.1, q.2)

/-- `extract_context_records`.  `zipEntries` stands for the source archive
(the zip listing with decoded contents); the `SystemExit` on a run-less file
is the `Except.error`.  A fresh `SourceArchive` with an empty cache is
constructed per call, as in the source. -/
def extract_context_records (sarif : Sarif) (zipEntries : List (String × List String))
    (ctx : Int) (limit : Option Int) : Except String (List Record) :=
  match sarif.runs with
  | [] => .error "SARIF file has no runs."
  | run :: _ =>
    .ok (extractLoop ctx limit { entries := zipEntries, cache := [] } 0 run.results).1

/-! ## Prompt formatter (`format_finding_as_prompt`)

The record handed to the formatter is always one built by
`extract_context_records`, so every dictionary key is present and the
`.get(key, default)` fallbacks (`'N/A'`, `'No snippet available.'`,
`'Step'`) never fire; what a key holds may still be `None`, which an
f-string renders as the text `None`.  Accessing `.get` on a `None` value
(`record['sink'] is None`, `step['location'] is None`) raises an
`AttributeError`, modelled as a `none` result. -/

/-- Rendering of an optional string inside an f-string: `None` or the text. -/
def pyStrOpt : Option String → String
  | none => "None"
  | some s => s

/-- Rendering of an optional integer inside an f-string. -/
def pyIntOpt : Option Int → String
  | none => "None"
  | some i => toString i

/-- The leading f-string of the prompt, up to and including the
`Taint Path` heading, for a record whose `sink` and `source` are present. -/
def promptHeader (r : Record) (sink source : LocationPayload) : String :=
  "You’re triaging shell-command injection alerts.\n\nRule: " ++ pyStrOpt r.rule_id ++
  "\nScore: " ++ pyIntOpt r.score ++
  "\nFile: " ++ pyStrOpt sink.uri ++
  "\nLine: " ++ pyIntOpt sink.start_line ++
  "\n\nSink (where the command is executed):\n```\n" ++ pyStrOpt sink.snippet ++
  "\n```\n\nSource (where the input originates):\n```\n" ++ pyStrOpt source.snippet ++
  "\n```\n\nTaint Path (data flow from source to sink):\n"

/-- One line of the enumerated taint path,
`f"{i+1}. {message} at {uri}:{line}\n"`; `none` is the `AttributeError`
raised by `location.get` when the step's location is `None`. -/
def stepLine (i : Nat) (st : FlowStep) : Option String :=
  match st.location with
  | none => none
  | some loc =>
    some (toString (i + 1) ++ ". " ++ pyStrOpt st.message ++ " at " ++
          pyStrOpt loc.uri ++ ":" ++ pyIntOpt loc.start_line ++ "\n")

/-- The `for i, step in enumerate(path_steps)` loop, accumulating lines. -/
def pathLines : Nat → List FlowStep → Option String
  | _, [] => some ""
  | i, st :: sts => do
    let l ← stepLine i st
    let rest ← pathLines (i + 1) sts
    pure (l ++ rest)

/-- The taint-path section: the fixed fallback sentence for an empty path,
the enumerated steps otherwise. -/
def pathSection (steps : List FlowStep) : Option String :=
  match steps with
  | [] => some "No data flow path available.\n"
  | _ => pathLines 0 steps

/-- The result of `textwrap.dedent` on the closing triple-quoted block:
the common four-space margin is removed and the whitespace-only last line
collapses to nothing. -/
def promptTail : String :=
  "\nPlease answer these questions:\n" ++
  "1. Does the command execute user-controlled or environment-derived input?\n" ++
  "2. Is there any sanitization or validation of the input?\n" ++
  "3. Is the execution path from source to sink reachable in a realistic scenario?\n" ++
  "4. Are there any other constraints or conditions that might mitigate the risk?\n\n" ++
  "Return a JSON response with your verdict, confidence, and a brief reason. " ++
  "The reason must reference details from the code snippets.\n" ++
  "\x7b\n    \"verdict\": \"malicious|benign|unsure\",\n" ++
  "    \"confidence\": \"high|medium|low\",\n" ++
  "    \"reason\": \"...\"\n\x7d\n"

/-- `format_finding_as_prompt`.  `none` models the `AttributeError` the
f-string raises when `record['sink']` or `record['source']` is `None`, or
the loop raises when a step's `location` is `None`. -/
def format_finding_as_prompt (r : Record) : Option String :=
  match r.sink, r.source with
  | some sink, some source =>
    (pathSection r.path).map (fun body => promptHeader r sink source ++ body ++ promptTail)
  | _, _ => none

/-- Spec-side rendering of one taint-path line, for comparison with the
loop in `format_finding_as_prompt`: step number `n + 1` (1-based), then
`". {message} at {uri}:{line}"`. -/
def stepText (n : Nat) (st : FlowStep) : String :=
  toString (n + 1) ++ ". " ++ pyStrOpt st.message ++ " at " ++
    pyStrOpt ((st.location.getD default).uri) ++ ":" ++
    pyIntOpt ((st.location.getD default).start_line) ++ "\n"

end ResultInspector

namespace Gemini

/-! ## Interactive triage loop (`gemini.py`)

The Gemini client is an opaque function from the conversation history to the
reply text; console input is a finite script of lines.  `SystemExit` raised
by the `quit` token is the `quitAll` outcome, which `runFindings` (the
`for record in records` loop of `main`) propagates by stopping. -/

inductive Role where
  | user
  | model
deriving DecidableEq, Repr

structure Turn where
  role : Role
  text : String
deriving DecidableEq, Repr

inductive SessionExit where
  /-- `SystemExit("Exiting.")` from the `quit` token. -/
  | quitAll
  /-- `break` out of the loop from the `next` token. -/
  | nextFinding
  /-- The input script ran out (end of input ends the session). -/
  | ranOut
deriving DecidableEq, Repr

/-- Whitespace removed by Python `str.strip()`. -/
def isPySpace (c : Char) : Bool :=
  c = ' ' || c = '\t' || c = '\n' || c = '\r' || c = '\x0b' || c = '\x0c'

/-- `user_input.strip().lower()`. -/
def controlToken (s : String) : String :=
  String.mk (((s.data.dropWhile isPySpace).reverse.dropWhile
    isPySpace).reverse.map Char.toLower)

/-- The interactive `while True` loop of `start_chat_session`.  Returns the
exit reason, the final history, the list of histories passed to
`generate_content` (`_send_and_record_response` appends the user turn and
sends the whole list), and the unread rest of the input script. -/
def chatLoop (gen : List Turn → String) :
    List Turn → List String → SessionExit × List Turn × List (List Turn) × List String
  | hist, [] => (.ranOut, hist, [], [])
  | hist, s :: rest =>
    let l := controlToken s
    if l = "quit" then (.quitAll, hist, [], rest)
    else if l = "next" then (.nextFinding, hist, [], rest)
    else
      let h1 := hist ++ [⟨.user, s⟩]
      let reply := gen h1
      let h2 := h1 ++ [⟨.model, reply⟩]
      let q := chatLoop gen h2 rest
      (q.1, q.2.1, h1 :: q.2.2.1, q.2.2.2)

/-- `start_chat_session` for one finding: the initial prompt is sent first
(with history consisting of just that prompt), then the interactive loop
runs on the grown history. -/
def start_chat_session (gen : List Turn → String) (prompt : String)
    (inputs : List String) : SessionExit × List Turn × List (List Turn) × List String :=
  let h1 : List Turn := [⟨.user, prompt⟩]
  let reply := gen h1
  let h2 := h1 ++ [⟨.model, reply⟩]
  let q := chatLoop gen h2 inputs
  (q.1, q.2.1, h1 :: q.2.2.1, q.2.2.2)

structure RunResult where
  /-- Did a `quit` token abort the whole run (`SystemExit`)? -/
  quit : Bool
  /-- Number of findings whose session was started. -/
  sessionsRun : Nat
  /-- All histories passed to `generate_content`, across sessions. -/
  sends : List (List Turn)
  /-- Number of findings never reached. -/
  unstarted : Nat
deriving DecidableEq, Repr

/-- The `for idx, record in enumerate(records)` loop of `main`: one session
per prompt, with `SystemExit` (the `quit` token) stopping everything. -/
def runFindings (gen : List Turn → String) :
    List String → List String → RunResult
  | [], _ => ⟨false, 0, [], 0⟩
  | p :: ps, inputs =>
    let q := start_chat_session gen p inputs
    match q.1 with
    | .quitAll => ⟨true, 1, q.2.2.1, ps.length⟩
    | _ =>
      let r := runFindings gen ps q.2.2.2
      ⟨r.quit, r.sessionsRun + 1, q.2.2.1 ++ r.sends, r.unstarted⟩

end Gemini

namespace JsonModel

/-! ## Line-delimited JSON output

`main` writes each record with `json.dump(record, handle, ensure_ascii=False)`
followed by `"\n"`.  The JSON value space the records live in, the writer
(mirroring `json.dump`'s default format: `", "` and `": "` separators,
non-ASCII characters kept, `"`, `\` and control characters escaped) and a
standard recursive-descent JSON reader used to state the round-trip. -/

open ResultInspector

inductive Json where
  | null
  | bool (b : Bool)
  | num (n : Int)
  | str (s : String)
  | arr (xs : List Json)
  | obj (kvs : List (String × Json))

def hexDigit (n : Nat) : Char := if n < 10 then Char.ofNat (48 + n) else Char.ofNat (87 + n)

/-- `json.dump`'s escaping of one character (`ensure_ascii=False`). -/
def escapeChar (c : Char) : List Char :=
  if c = '"' then ['\\', '"']
  else if c = '\\' then ['\\', '\\']
  else if c = '\n' then ['\\', 'n']
  else if c = '\t' then ['\\', 't']
  else if c = '\r' then ['\\', 'r']
  else if c = '\x08' then ['\\', 'b']
  else if c = '\x0c' then ['\\', 'f']
  else if c.toNat < 32 then ['\\', 'u', '0', '0', hexDigit (c.toNat / 16), hexDigit (c.toNat % 16)]
  else [c]

def writeStr (s : String) : List Char :=
  '"' :: (s.data.map escapeChar).flatten ++ ['"']

def digitChar (d : Nat) : Char := Char.ofNat (48 + d)

/-- Decimal digits of a natural number, most significant first. -/
def natChars (n : Nat) : List Char :=
  if n < 10 then [digitChar n]
  else natChars (n / 10) ++ [digitChar (n % 10)]
decreasing_by exact Nat.div_lt_self (by omega) (by omega)

/-- Python `str` of an integer. -/
def intChars : Int → List Char
  | .ofNat n => natChars n
  | .negSucc n => '-' :: natChars (n + 1)

mutual

def writeJson : Json → List Char
  | .num n => intChars n
  | .str s => writeStr s
  | .null => "null".data
  | .bool b => if b then "true".data else "false".data
  | .arr xs => '[' :: (writeElems xs ++ [']'])
  | .obj kvs => '\x7b' :: (writeMembers kvs ++ ['\x7d'])

def writeElems : List Json → List Char
  | [] => []
  | [x] => writeJson x
  | x :: y :: xs => writeJson x ++ ',' :: ' ' :: writeElems (y :: xs)

def writeMembers : List (String × Json) → List Char
  | [] => []
  | [kv] => writeStr kv.1 ++ ':' :: ' ' :: writeJson kv.2
  | kv :: kv2 :: kvs =>
    writeStr kv.1 ++ ':' :: ' ' :: writeJson kv.2 ++ ',' :: ' ' :: writeMembers (kv2 :: kvs)

end

/-! ### The reader -/

def isWsCh (c : Char) : Bool := c = ' ' || c = '\t' || c = '\n' || c = '\r'

def skipWs (cs : List Char) : List Char := cs.dropWhile isWsCh

def isDigitCh (c : Char) : Bool := 48 ≤ c.toNat && c.toNat ≤ 57

def hexVal (c : Char) : Option Nat :=
  if 48 ≤ c.toNat ∧ c.toNat ≤ 57 then some (c.toNat - 48)
  else if 97 ≤ c.toNat ∧ c.toNat ≤ 102 then some (c.toNat - 87)
  else if 65 ≤ c.toNat ∧ c.toNat ≤ 70 then some (c.toNat - 55)
  else none

def unescapeChar (e : Char) : Option Char :=
  if e = '"' then some '"'
  else if e = '\\' then some '\\'
  else if e = '/' then some '/'
  else if e = 'n' then some '\n'
  else if e = 't' then some '\t'
  else if e = 'r' then some '\r'
  else if e = 'b' then some (Char.ofNat 8)
  else if e = 'f' then some (Char.ofNat 12)
  else none

/-- Body of a JSON string after the opening quote: returns the decoded
characters and the input after the closing quote. -/
def parseStringBody : List Char → Option (List Char × List Char)
  | [] => none
  | c :: rest =>
    if c = '"' then some ([], rest)
    else if c = '\\' then
      match rest with
      | [] => none
      | e :: rest2 =>
        if e = 'u' then
          match rest2 with
          | h1 :: h2 :: h3 :: h4 :: rest3 =>
            (hexVal h1).bind fun a =>
              (hexVal h2).bind fun b =>
                (hexVal h3).bind fun c3 =>
                  (hexVal h4).bind fun d =>
                    (parseStringBody rest3).map fun p =>
                      (Char.ofNat (((a * 16 + b) * 16 + c3) * 16 + d) :: p.1, p.2)
          | _ => none
        else
          (unescapeChar e).bind fun u =>
            (parseStringBody rest2).map fun p => (u :: p.1, p.2)
    else if c.toNat < 32 then none
    else (parseStringBody rest).map fun p => (c :: p.1, p.2)
termination_by cs => cs.length
decreasing_by all_goals (simp_all; try omega)

/-- Digit accumulator of the number reader. -/
def digitsAux : Nat → List Char → Nat × List Char
  | acc, [] => (acc, [])
  | acc, c :: rest =>
    if isDigitCh c then digitsAux (acc * 10 + (c.toNat - 48)) rest
    else (acc, c :: rest)

def startsDigit : List Char → Bool
  | [] => false
  | c :: _ => isDigitCh c

/-- Integer reader: optional minus sign, then decimal digits. -/
def parseNum (cs : List Char) : Option (Int × List Char) :=
  if cs.head? = some '-' then
    if startsDigit cs.tail then
      some (-((digitsAux 0 cs.tail).1 : Int), (digitsAux 0 cs.tail).2)
    else none
  else if startsDigit cs then
    some (((digitsAux 0 cs).1 : Int), (digitsAux 0 cs).2)
  else none

mutual

def parseValue : Nat → List Char → Option (Json × List Char)
  | 0, _ => none
  | fuel + 1, input =>
    match skipWs input with
    | [] => none
    | c :: rest =>
      if c = 'n' then
        if rest.take 3 = ['u', 'l', 'l'] then some (.null, rest.drop 3) else none
      else if c = 't' then
        if rest.take 3 = ['r', 'u', 'e'] then some (.bool true, rest.drop 3) else none
      else if c = 'f' then
        if rest.take 4 = ['a', 'l', 's', 'e'] then some (.bool false, rest.drop 4) else none
      else if c = '"' then
        (parseStringBody rest).map fun p => (.str (String.mk p.1), p.2)
      else if c = '[' then
        let r := skipWs rest
        if r.head? = some ']' then some (.arr [], r.tail)
        else (parseElems fuel r).map fun p => (.arr p.1, p.2)
      else if c = '\x7b' then
        let r := skipWs rest
        if r.head? = some '\x7d' then some (.obj [], r.tail)
        else (parseMembers fuel r).map fun p => (.obj p.1, p.2)
      else (parseNum (c :: rest)).map fun p => (.num p.1, p.2)

def parseElems : Nat → List Char → Option (List Json × List Char)
  | 0, _ => none
  | fuel + 1, input =>
    (parseValue (fuel + 1) input).bind fun pv =>
      let r2 := skipWs pv.2
      if r2.head? = some ',' then
        (parseElems fuel r2.tail).map fun p => (pv.1 :: p.1, p.2)
      else if r2.head? = some ']' then some ([pv.1], r2.tail)
      else none

def parseMembers : Nat → List Char → Option (List (String × Json) × List Char)
  | 0, _ => none
  | fuel + 1, input =>
    match skipWs input with
    | '"' :: rest =>
      (parseStringBody rest).bind fun pk =>
        let r2 := skipWs pk.2
        if r2.head? = some ':' then
          (parseValue (fuel + 1) r2.tail).bind fun pv =>
            let r4 := skipWs pv.2
            if r4.head? = some ',' then
              (parseMembers fuel r4.tail).map fun p =>
                ((String.mk pk.1, pv.1) :: p.1, p.2)
            else if r4.head? = some '\x7d' then some ([(String.mk pk.1, pv.1)], r4.tail)
            else none
        else none
    | _ => none

end

/-- Reader for one whole line: the value must fill the line up to
whitespace. -/
def parseLine (cs : List Char) : Option Json :=
  (parseValue (cs.length + 1) cs).bind fun p =>
    if skipWs p.2 = [] then some p.1 else none

/-! ### Records as JSON values, mirroring the keys and order of the
dictionaries built in `extract_context_records`. -/

def optStrJson : Option String → Json
  | none => .null
  | some s => .str s

def optIntJson : Option Int → Json
  | none => .null
  | some i => .num i

def payloadJson : Option LocationPayload → Json
  | none => .null
  | some p =>
    .obj [("uri", optStrJson p.uri), ("start_line", optIntJson p.start_line),
          ("start_column", optIntJson p.start_column), ("end_line", optIntJson p.end_line),
          ("end_column", optIntJson p.end_column), ("snippet", optStrJson p.snippet)]

def stepJson (st : FlowStep) : Json :=
  .obj [("message", optStrJson st.message), ("location", payloadJson st.location)]

def recordToJson (r : Record) : Json :=
  .obj [("result_index", .num r.result_index), ("rule_id", optStrJson r.rule_id),
        ("message", optStrJson r.message), ("score", optIntJson r.score),
        ("sink", payloadJson r.sink), ("source", payloadJson r.source),
        ("path", .arr (r.path.map stepJson))]

/-- The bytes `main` writes for a list of records: each record's JSON on
its own line. -/
def jsonlOutput (recs : List Record) : List Char :=
  (recs.map fun r => writeJson (recordToJson r) ++ ['\n']).flatten

/-- Split a character stream at newlines. -/
def splitNl : List Char → List (List Char)
  | [] => [[]]
  | c :: cs =>
    let r := splitNl cs
    if c = '\n' then [] :: r
    else
      match r with
      | [] => [[c]]
      | h :: t => (c :: h) :: t

/-! Structural size of a JSON value, used to bound the reader's fuel. -/

mutual

def jsize : Json → Nat
  | .arr xs => 1 + jsizeL xs
  | .obj kvs => 1 + jsizeM kvs
  | .num _ => 1
  | .str _ => 1
  | .null => 1
  | .bool _ => 1

def jsizeL : List Json → Nat
  | [] => 1
  | x :: xs => jsize x + jsizeL xs

def jsizeM : List (String × Json) → Nat
  | [] => 1
  | kv :: kvs => jsize kv.2 + jsizeM kvs

end

end JsonModel

/-! # Theorems -/

namespace ResultInspector

/-- Evaluation of `read_context` on a fresh archive whose resolution
succeeds: the result is the rendered window over the entry's lines. -/
theorem read_context_fresh (ents : List (String × List String)) (u e : String)
    (ls : List String) (L r : Int) (hu : u ≠ "") (hL : L ≠ 0)
    (hres : resolvePure (ents.map Prod.fst) u = some e)
    (hlook : (SourceArchive.mk ents []).readLines e = ls) :
    (SourceArchive.read_context ⟨ents, []⟩ (some u) (some L) r).1 =
      (renderSnippet ls (windowStart L r) (windowEnd L r ls.length)).map
        (fun text => ⟨u, e, L, text⟩) := by
  have hiff : ¬(u = "" ∨ L = 0) := by
    rintro (h | h)
    · exact hu h
    · exact hL h
  have hresolve : SourceArchive.resolve ⟨ents, []⟩ u =
      (some e, ⟨ents, [(u, some e)]⟩) := by
    simp [SourceArchive.resolve, lookupCache, hres]
  have hlines : (SourceArchive.mk ents [(u, some e)]).readLines e = ls := hlook
  simp only [SourceArchive.read_context, if_neg hiff, hresolve, hlines]
  cases h : renderSnippet ls (windowStart L r) (windowEnd L r ls.length) <;> simp [h]

/-- C1: for an entry of `N ≥ 1` lines, radius `r ≥ 0` and requested line
`L ≥ 1`, `read_context` computes the 0-based target index `max(L-1, 0)` and
renders exactly the inclusive window `[max(index-r, 0), min(index+r, N-1)]`;
every index of that window lies in `[0, N-1]`, and the window contains
`L-1` whenever `1 ≤ L ≤ N`. -/
theorem read_context_window (N : Nat) (r L : Int) (hN : 1 ≤ N) (hr : 0 ≤ r) (hL : 1 ≤ L) :
    targetIndex L = max (L - 1) 0 ∧
    windowStart L r = max (targetIndex L - r) 0 ∧
    windowEnd L r N = min (targetIndex L + r) ((N : Int) - 1) ∧
    (∀ i : Int, windowStart L r ≤ i → i ≤ windowEnd L r N → 0 ≤ i ∧ i ≤ (N : Int) - 1) ∧
    (L ≤ (N : Int) → windowStart L r ≤ L - 1 ∧ L - 1 ≤ windowEnd L r N) ∧
    (∀ (ents : List (String × List String)) (u e : String) (ls : List String),
      u ≠ "" → resolvePure (ents.map Prod.fst) u = some e →
      (SourceArchive.mk ents []).readLines e = ls → ls.length = N →
      (SourceArchive.read_context ⟨ents, []⟩ (some u) (some L) r).1 =
        (renderSnippet ls (windowStart L r) (windowEnd L r N)).map
          (fun text => ⟨u, e, L, text⟩)) := by
  refine ⟨rfl, rfl, rfl,
    fun i h1 h2 => by simp only [windowStart, windowEnd, targetIndex] at h1 h2; omega,
    fun h => by simp only [windowStart, windowEnd, targetIndex]; omega,
    fun ents u e ls hu hres hlook hlen => by
      rw [read_context_fresh ents u e ls L r hu (by omega) hres hlook, hlen]⟩

/-- Concrete instance of the C1 window/read_context theorem. -/
theorem read_context_window_witness :
    (SourceArchive.read_context ⟨[("a/f.py", ["l1", "l2", "l3"])], []⟩
        (some "f.py") (some 2) 1).1 =
      (renderSnippet ["l1", "l2", "l3"] (windowStart 2 1) (windowEnd 2 1 3)).map
        (fun text => ⟨"f.py", "a/f.py", 2, text⟩) ∧
    windowStart 2 1 ≤ 2 - 1 ∧ 2 - 1 ≤ windowEnd 2 1 3 := by
  have h := read_context_window 3 1 2 (by decide) (by decide) (by decide)
  exact ⟨h.2.2.2.2.2 [("a/f.py", ["l1", "l2", "l3"])] "f.py" "a/f.py" ["l1", "l2", "l3"]
      (by decide) (by decide) rfl rfl,
    h.2.2.2.2.1 (by decide)⟩

/-- `collectLines` succeeds whenever every requested index is in range. -/
theorem collectLines_total (lines : List String) :
    ∀ idxs : List Nat, (∀ i ∈ idxs, i < lines.length) →
      ∃ ts, collectLines lines idxs = some ts ∧ ts.length = idxs.length := by
  intro idxs
  induction idxs with
  | nil => exact fun _ => ⟨[], rfl, rfl⟩
  | cons i is ih =>
    intro h
    have hi : i < lines.length := h i (by simp)
    obtain ⟨ts, hts, hlen⟩ := ih (fun j hj => h j (by simp [hj]))
    refine ⟨(lineNoFmt ((i : Int) + 1) ++ rstripNl lines[i]) :: ts, ?_, by simp [hlen]⟩
    simp [collectLines, List.getElem?_eq_getElem hi, hts]

/-- `renderSnippet` always succeeds on a clamped window, and yields the
empty string when the window is empty. -/
theorem renderSnippet_total (ls : List String) (s e : Int)
    (hs : 0 ≤ s) (he : e ≤ (ls.length : Int) - 1) :
    ∃ t, renderSnippet ls s e = some t ∧ (e < s → t = "") := by
  have hmem : ∀ i ∈ List.range' s.toNat (e + 1 - s).toNat, i < ls.length := by
    intro i hi
    rw [List.mem_range'_1] at hi
    omega
  obtain ⟨ts, hts, hlen⟩ := collectLines_total ls _ hmem
  refine ⟨String.intercalate "\n" ts, by simp [renderSnippet, hts], ?_⟩
  intro hlt
  have hz : (e + 1 - s).toNat = 0 := by omega
  rw [hz] at hts hlen
  have hnil : ts = [] := List.eq_nil_of_length_eq_zero (by simpa using hlen)
  subst hnil
  rfl

/-- Python `min(·, key=len)` (left fold with `shorterOf`) returns an element
of minimal length, and the first such element in list order: everything
before it in the list is strictly longer. -/
theorem foldlShorter_spec :
    ∀ (xs : List String) (x : String),
      ∃ pre suf, x :: xs = pre ++ (xs.foldl shorterOf x) :: suf ∧
        (∀ p ∈ pre, (xs.foldl shorterOf x).length < p.length) ∧
        ∀ m ∈ x :: xs, (xs.foldl shorterOf x).length ≤ m.length := by
  intro xs
  induction xs with
  | nil => exact fun x => ⟨[], [], rfl, by simp, by simp⟩
  | cons y ys ih =>
    intro x
    by_cases hy : y.length < x.length
    · have hf : (y :: ys).foldl shorterOf x = ys.foldl shorterOf y := by
        simp [List.foldl_cons, shorterOf, hy]
      obtain ⟨pre, suf, hdec, hpre, hmin⟩ := ih y
      rw [hf]
      refine ⟨x :: pre, suf, by rw [List.cons_append, ← hdec], ?_, ?_⟩
      · intro p hp
        rcases List.mem_cons.mp hp with rfl | hp2
        · have hyy := hmin y (List.mem_cons_self _ _)
          omega
        · exact hpre p hp2
      · intro m hm
        rcases List.mem_cons.mp hm with rfl | hm2
        · have hyy := hmin y (List.mem_cons_self _ _)
          omega
        · exact hmin m hm2
    · have hf : (y :: ys).foldl shorterOf x = ys.foldl shorterOf x := by
        simp [List.foldl_cons, shorterOf, hy]
      obtain ⟨pre, suf, hdec, hpre, hmin⟩ := ih x
      rw [hf]
      set w := ys.foldl shorterOf x with hw
      cases pre with
      | nil =>
        simp only [List.nil_append] at hdec
        injection hdec with h1 h2
        have hl := congrArg String.length h1
        refine ⟨[], y :: ys, by rw [List.nil_append, ← h1], by simp, ?_⟩
        intro m hm
        rcases List.mem_cons.mp hm with rfl | hm2
        · omega
        · rcases List.mem_cons.mp hm2 with rfl | hm3
          · omega
          · exact hmin m (List.mem_cons_of_mem _ hm3)
      | cons p0 pre' =>
        injection hdec with h1 h2
        subst h1
        refine ⟨x :: y :: pre', suf, by rw [h2]; rfl, ?_, ?_⟩
        · intro p hp
          have hx : w.length < x.length := hpre x (by simp)
          rcases List.mem_cons.mp hp with rfl | hp2
          · exact hx
          · rcases List.mem_cons.mp hp2 with rfl | hp3
            · omega
            · exact hpre p (List.mem_cons_of_mem _ hp3)
        · intro m hm
          rcases List.mem_cons.mp hm with rfl | hm2
          · exact hmin m (List.mem_cons_self _ _)
          · rcases List.mem_cons.mp hm2 with rfl | hm3
            · have := hmin x (List.mem_cons_self _ _)
              omega
            · exact hmin m (List.mem_cons_of_mem _ hm3)

/-- `pyMinByLen` characterised: shortest match, ties broken by first
position. -/
theorem pyMinByLen_spec (l : List String) (e : String) (h : pyMinByLen l = some e) :
    ∃ pre suf, l = pre ++ e :: suf ∧ (∀ p ∈ pre, e.length < p.length) ∧
      ∀ m ∈ l, e.length ≤ m.length := by
  cases l with
  | nil => simp [pyMinByLen] at h
  | cons x xs =>
    simp only [pyMinByLen, Option.some.injEq] at h
    subst h
    exact foldlShorter_spec xs x

/-- C2: an uncached `_resolve` lookup returns, among the archive names whose
path ends with the uri, the shortest one, ties broken by first position in
the archive listing (and `none` when nothing matches); the answer, absent
results included, is stored in the cache, and a repeated lookup returns the
same answer from the cache without touching the archive state. -/
theorem resolve_shortest_first_cached (a : SourceArchive) (uri : String)
    (hfresh : lookupCache a.cache uri = none) :
    ((a.resolve uri).1 = resolvePure (a.entries.map Prod.fst) uri) ∧
    ((a.entries.map Prod.fst).filter (fun n => pyEndsWith n uri) = [] →
      (a.resolve uri).1 = none) ∧
    (∀ e, (a.resolve uri).1 = some e →
      ∃ pre suf, (a.entries.map Prod.fst).filter (fun n => pyEndsWith n uri) =
          pre ++ e :: suf ∧
        (∀ p ∈ pre, e.length < p.length) ∧
        (∀ m ∈ (a.entries.map Prod.fst).filter (fun n => pyEndsWith n uri),
          e.length ≤ m.length)) ∧
    lookupCache (a.resolve uri).2.cache uri = some (a.resolve uri).1 ∧
    (a.resolve uri).2.resolve uri = ((a.resolve uri).1, (a.resolve uri).2) := by
  have hres : a.resolve uri =
      (resolvePure (a.entries.map Prod.fst) uri,
        { a with cache := (uri, resolvePure (a.entries.map Prod.fst) uri) :: a.cache }) := by
    simp [SourceArchive.resolve, hfresh]
  refine ⟨by rw [hres], ?_, ?_, ?_, ?_⟩
  · intro hempty
    rw [hres]
    simp [resolvePure, hempty, pyMinByLen]
  · intro e he
    rw [hres] at he
    exact pyMinByLen_spec _ e he
  · rw [hres]
    simp [lookupCache]
  · rw [hres]
    simp [SourceArchive.resolve, lookupCache]

/-- Concrete instance of the C2 resolution theorem: two equally short
matches, the earlier one in listing order wins; the repeat lookup is served
from the cache with unchanged state. -/
theorem resolve_shortest_first_cached_witness :
    ((SourceArchive.mk [("lib/sub/f.py", []), ("a/f.py", []), ("b/f.py", [])] []).resolve
        "f.py").1 = some "a/f.py" ∧
    ((SourceArchive.mk [("lib/sub/f.py", []), ("a/f.py", []), ("b/f.py", [])] []).resolve
          "f.py").2.resolve "f.py" =
      (((SourceArchive.mk [("lib/sub/f.py", []), ("a/f.py", []), ("b/f.py", [])] []).resolve
          "f.py").1,
        ((SourceArchive.mk [("lib/sub/f.py", []), ("a/f.py", []), ("b/f.py", [])] []).resolve
          "f.py").2) := by
  have h := resolve_shortest_first_cached
    (SourceArchive.mk [("lib/sub/f.py", []), ("a/f.py", []), ("b/f.py", [])] []) "f.py" rfl
  exact ⟨h.1.trans (by decide), h.2.2.2.2⟩

/-- C10: for every uri that resolves and every truthy line `L` (even one
past the end of the entry, or negative, or on an empty entry),
`read_context` neither raises an `IndexError` nor returns an absent result:
it returns a payload, whose snippet is the empty string when the clamped
window is empty. -/
theorem read_context_total_on_resolved (ents : List (String × List String))
    (u e : String) (L r : Int) (hu : u ≠ "") (hL : L ≠ 0)
    (hres : resolvePure (ents.map Prod.fst) u = some e) :
    ∃ text, (SourceArchive.read_context ⟨ents, []⟩ (some u) (some L) r).1 =
        some ⟨u, e, L, text⟩ ∧
      (windowEnd L r ((SourceArchive.mk ents []).readLines e).length < windowStart L r →
        text = "") := by
  have h0 : 0 ≤ windowStart L r := by
    simp only [windowStart, targetIndex]
    omega
  have h1 : windowEnd L r ((SourceArchive.mk ents []).readLines e).length ≤
      (((SourceArchive.mk ents []).readLines e).length : Int) - 1 := by
    simp only [windowEnd]
    omega
  obtain ⟨t, ht, hempty⟩ := renderSnippet_total ((SourceArchive.mk ents []).readLines e)
    (windowStart L r) (windowEnd L r ((SourceArchive.mk ents []).readLines e).length) h0 h1
  refine ⟨t, ?_, fun hlt => hempty hlt⟩
  rw [read_context_fresh ents u e ((SourceArchive.mk ents []).readLines e) L r hu hL hres rfl,
    ht]
  rfl

/-- Concrete instance of the C10 safety theorem: requested line 5 of an
empty archived file still yields a payload, with an empty snippet. -/
theorem read_context_total_witness :
    ∃ text, (SourceArchive.read_context ⟨[("f", [])], []⟩ (some "f") (some 5) 2).1 =
        some ⟨"f", "f", 5, text⟩ ∧
      (windowEnd 5 2 ((SourceArchive.mk [("f", [])] []).readLines "f").length <
          windowStart 5 2 → text = "") :=
  read_context_total_on_resolved [("f", [])] "f" "f" 5 2 (by decide) (by decide) (by decide)

/-- C7 (amended): the snippet line header is the line number right-aligned
in a field of width 5 followed by `": "`; its width is exactly 7 characters
whenever the rendered number takes at most 5 characters (so for all line
numbers from 1 to 99999), and grows beyond 7 for wider numbers. -/
theorem lineNoFmt_width (n : Int) :
    lineNoFmt n = String.mk (List.replicate (5 - (toString n).length) ' ') ++
      toString n ++ ": " ∧
    (lineNoFmt n).length = max 5 (toString n).length + 2 ∧
    ((toString n).length ≤ 5 → (lineNoFmt n).length = 7) := by
  have h2 : (lineNoFmt n).length = max 5 (toString n).length + 2 := by
    have hc : (": ").length = 2 := rfl
    simp [lineNoFmt, padNum, String.length_append, hc]
    omega
  exact ⟨rfl, h2, fun h => by rw [h2]; omega⟩

/-- Concrete instances of the C7 width theorem at lines 1 and 99999. -/
theorem lineNoFmt_width_witness :
    (lineNoFmt 1).length = 7 ∧ (lineNoFmt 99999).length = 7 :=
  ⟨(lineNoFmt_width 1).2.2 (by decide), (lineNoFmt_width 99999).2.2 (by decide)⟩

/-- C7 counterexample: rendering line 100000 of a 100000-line file puts a
six-character line number in the header, so the prefix before the line text
is 8 characters, not the claimed 5 + 2. -/
theorem lineNoFmt_overflow_cex :
    (SourceArchive.read_context ⟨[("f", List.replicate 100000 "x")], []⟩
        (some "f") (some 100000) 0).1 = some ⟨"f", "f", 100000, "100000: x"⟩ ∧
    (lineNoFmt 100000).length ≠ 7 := by
  constructor
  · rw [read_context_fresh [("f", List.replicate 100000 "x")] "f" "f"
        (List.replicate 100000 "x") 100000 0 (by decide) (by decide) (by decide) rfl]
    rw [List.length_replicate]
    have hws : windowStart 100000 0 = 99999 := by decide
    have hwe : windowEnd 100000 0 100000 = 99999 := by decide
    rw [hws, hwe]
    have hcnt : ((99999 : Int) + 1 - 99999).toNat = 1 := by decide
    have htn : ((99999 : Int)).toNat = 99999 := by decide
    have hr : List.range' 99999 1 = [99999] := rfl
    simp only [renderSnippet, hcnt, htn, hr]
    have hx : (List.replicate 100000 "x")[99999]? = some "x" := by
      rw [List.getElem?_replicate]
      decide
    simp only [collectLines, hx, Option.map_some', Option.some_bind]
    decide
  · decide

/-- C5: a payload built by `_location_payload` whose `uri` is null or whose
`start_line` is null or falsy always carries a null `snippet`. -/
theorem locationPayload_null_snippet (l : PhysLoc) (a : SourceArchive) (ctx : Int)
    (p : LocationPayload) (a' : SourceArchive)
    (h : locationPayload (some l) a ctx = (some p, a'))
    (hnull : p.uri = none ∨ p.start_line = none ∨ p.start_line = some 0) :
    p.snippet = none := by
  simp only [locationPayload] at h
  injection h with h1 h2
  injection h1 with h1
  subst h1
  rcases hnull with huri | hline | hline
  · simp only at huri
    simp [huri, SourceArchive.read_context]
  · simp only at hline
    cases hu : l.artifactUri <;> simp [hline, hu, SourceArchive.read_context]
  · simp only at hline
    cases hu : l.artifactUri <;> simp [hline, hu, SourceArchive.read_context]

/-- Concrete instance of the C5 null-snippet invariant. -/
theorem locationPayload_null_snippet_witness :
    ({ uri := some "f.py", start_line := none, start_column := none, end_line := none,
       end_column := none, snippet := none } : LocationPayload).snippet = none := by
  refine locationPayload_null_snippet
    { artifactUri := some "f.py", startLine := none, startColumn := none,
      endLine := none, endColumn := none } ⟨[], []⟩ 5 _ ⟨[], []⟩ rfl (Or.inr (Or.inl rfl))

/-- C6: a results file with zero runs is a fatal error, and with one or
more runs only the first run's results are ever read. -/
theorem extract_no_runs_first_run_only (ents : List (String × List String)) (ctx : Int)
    (limit : Option Int) :
    extract_context_records ⟨[]⟩ ents ctx limit = .error "SARIF file has no runs." ∧
    ∀ (run : SarifRun) (rest : List SarifRun),
      extract_context_records ⟨run :: rest⟩ ents ctx limit =
        extract_context_records ⟨[run]⟩ ents ctx limit :=
  ⟨rfl, fun _ _ => rfl⟩

/-- With a limit, the extraction loop behaves exactly like the unlimited
loop run on the input truncated at the limit: results past the limit are
never read. -/
theorem extractLoop_limit_take (ctx : Int) (l : Int) :
    ∀ (rs : List SarifResult) (a : SourceArchive) (idx : Nat),
      extractLoop ctx (some l) a idx rs =
        extractLoop ctx none a idx (rs.take (l - idx).toNat) := by
  intro rs
  induction rs with
  | nil =>
    intro a idx
    simp [extractLoop]
  | cons r rs ih =>
    intro a idx
    by_cases h : (idx : Int) ≥ l
    · have hz : (l - (idx : Int)).toNat = 0 := by omega
      rw [hz]
      simp [extractLoop, limitReached, h]
    · have hpos : (l - (idx : Int)).toNat = ((l - ((idx : Nat) + 1 : Nat)).toNat) + 1 := by
        push_cast
        omega
      rw [hpos]
      simp only [List.take_succ_cons, extractLoop, limitReached]
      rw [if_neg (by simpa using h)]
      rw [ih]
      simp

/-- Prefix property of the unlimited extraction loop. -/
theorem extractLoop_none_take (ctx : Int) :
    ∀ (rs : List SarifResult) (m : Nat) (a : SourceArchive) (idx : Nat),
      (extractLoop ctx none a idx (rs.take m)).1 =
        (extractLoop ctx none a idx rs).1.take m := by
  intro rs
  induction rs with
  | nil =>
    intro m a idx
    simp [extractLoop]
  | cons r rs ih =>
    intro m a idx
    cases m with
    | zero => simp [extractLoop]
    | succ m' =>
      simp only [List.take_succ_cons]
      simp [extractLoop, limitReached, ih]

/-- Every record of the extraction loop carries its position as
`result_index`. -/
theorem extractLoop_result_index (ctx : Int) (limit : Option Int) :
    ∀ (rs : List SarifResult) (a : SourceArchive) (idx k : Nat) (rec : Record),
      ((extractLoop ctx limit a idx rs).1)[k]? = some rec →
        rec.result_index = idx + k := by
  intro rs
  induction rs with
  | nil =>
    intro a idx k rec h
    simp [extractLoop] at h
  | cons r rs ih =>
    intro a idx k rec h
    by_cases hl : limitReached limit idx = true
    · simp [extractLoop, hl] at h
    · simp only [extractLoop, if_neg hl] at h
      cases k with
      | zero =>
        simp only [List.getElem?_cons_zero, Option.some.injEq] at h
        rw [← h]
        simp [buildRecord]
      | succ k' =>
        simp only [List.getElem?_cons_succ] at h
        have := ih _ _ _ _ h
        omega

/-- C3 (amended): for a results file with at least one run, the limited
extraction is the `min(max(limit,0), N)`-element initial segment of the
unlimited one (equal to it when the limit is at least the number of
results); `result_index` equals each record's original position, hence is
strictly increasing; and results beyond the limit are never read: limited
extraction coincides with unlimited extraction over the truncated results
list. -/
theorem extract_limit_is_initial_segment (runA : SarifRun) (restA : List SarifRun)
    (ents : List (String × List String)) (ctx : Int) (l : Int) :
    (∀ fl, extract_context_records ⟨runA :: restA⟩ ents ctx none = .ok fl →
      extract_context_records ⟨runA :: restA⟩ ents ctx (some l) = .ok (fl.take l.toNat) ∧
      (fl.take l.toNat).length = min l.toNat fl.length ∧
      (∀ (k : Nat) (rec : Record), fl[k]? = some rec → rec.result_index = k) ∧
      (∀ (j k : Nat) (rj rk : Record), j < k → fl[j]? = some rj → fl[k]? = some rk →
        rj.result_index < rk.result_index)) ∧
    extract_context_records ⟨runA :: restA⟩ ents ctx (some l) =
      extract_context_records ⟨[⟨runA.results.take l.toNat⟩]⟩ ents ctx none := by
  have hl0 : (l - ((0 : Nat) : Int)).toNat = l.toNat := by simp
  constructor
  · intro fl hfl
    simp only [extract_context_records] at hfl ⊢
    injection hfl with hfl
    refine ⟨?_, ?_, ?_, ?_⟩
    · rw [extractLoop_limit_take, hl0, extractLoop_none_take, hfl]
    · rw [List.length_take]
    · intro k rec h
      rw [← hfl] at h
      have := extractLoop_result_index ctx none runA.results _ 0 k rec h
      omega
    · intro j k rj rk hjk hj hk
      rw [← hfl] at hj hk
      have h1 := extractLoop_result_index ctx none runA.results _ 0 j rj hj
      have h2 := extractLoop_result_index ctx none runA.results _ 0 k rk hk
      omega
  · simp only [extract_context_records]
    rw [extractLoop_limit_take, hl0]

/-- Concrete instance of the C3 amended theorem, at a one-result file with
limit 2. -/
theorem extract_limit_is_initial_segment_witness :
    extract_context_records ⟨[⟨[⟨none, none, none, [], [], []⟩]⟩]⟩ [] 5 (some 2) =
      .ok (([⟨0, none, none, none, none, none, []⟩] : List Record).take (2 : Int).toNat) := by
  have h := (extract_limit_is_initial_segment ⟨[⟨none, none, none, [], [], []⟩]⟩ [] [] 5 2).1
    [⟨0, none, none, none, none, none, []⟩] rfl
  exact h.1

/-- C3 counterexample: with one result and limit 5 the output equals the
full record list (so it is not a *strict* prefix of it), and with the limit
set to `-1` the loop emits 0 records while `min(limit, N)` would be `-1`. -/
theorem extract_limit_cex :
    extract_context_records ⟨[⟨[⟨none, none, none, [], [], []⟩]⟩]⟩ [] 5 (some 5) =
      extract_context_records ⟨[⟨[⟨none, none, none, [], [], []⟩]⟩]⟩ [] 5 none ∧
    extract_context_records ⟨[⟨[⟨none, none, none, [], [], []⟩]⟩]⟩ [] 5 none =
      .ok [⟨0, none, none, none, none, none, []⟩] ∧
    extract_context_records ⟨[⟨[⟨none, none, none, [], [], []⟩]⟩]⟩ [] 5 (some (-1)) =
      .ok ([] : List Record) :=
  ⟨rfl, rfl, rfl⟩

theorem foldl_append_init (l : List String) : ∀ (a b : String),
    l.foldl (fun r s => r ++ s) (a ++ b) = a ++ l.foldl (fun r s => r ++ s) b := by
  induction l with
  | nil => intro a b; rfl
  | cons x xs ih => intro a b; simp only [List.foldl_cons, String.append_assoc, ih]

theorem join_cons (s : String) (l : List String) :
    String.join (s :: l) = s ++ String.join l := by
  show l.foldl (fun r t => r ++ t) ("" ++ s) = s ++ String.join l
  have h : ("" ++ s) = s ++ "" := by simp
  rw [h, foldl_append_init]
  rfl

/-- The `enumerate` loop of the formatter, evaluated: when every step has a
location, it renders each step at its 1-based index. -/
theorem pathLines_join : ∀ (steps : List FlowStep) (i : Nat),
    (∀ st ∈ steps, st.location ≠ none) →
    pathLines i steps =
      some (String.join (steps.mapIdx (fun k st => stepText (i + k) st))) := by
  intro steps
  induction steps with
  | nil => intro i _; rfl
  | cons st sts ih =>
    intro i h
    obtain ⟨loc, hloc⟩ : ∃ loc, st.location = some loc := by
      cases hst : st.location
      · exact absurd hst (h st (by simp))
      · exact ⟨_, rfl⟩
    have hstep : stepLine i st = some (stepText i st) := by
      simp [stepLine, stepText, hloc]
    have ihh := ih (i + 1) (fun st2 hst2 => h st2 (by simp [hst2]))
    have harg : (fun (k : Nat) (st2 : FlowStep) => stepText (i + 1 + k) st2) =
        (fun (k : Nat) (st2 : FlowStep) => stepText (i + (k + 1)) st2) := by
      funext k st2
      congr 1
      omega
    simp only [pathLines, hstep, ihh, Option.bind_eq_bind, Option.some_bind,
      List.mapIdx_cons, join_cons, Nat.add_zero, harg]
    rfl

/-- C4 (amended): for every record whose `sink` and `source` dictionaries
are present and whose path steps all carry a location, the formatter
succeeds: an empty path renders the single fixed fallback sentence, a
non-empty path is enumerated from 1 as `"{n}. {message} at {uri}:{line}"`;
null-valued fields render as Python's `None` text (never `"N/A"`, whose
`.get` defaults are dead for builder records since every key is present). -/
theorem format_finding_renders (r : Record) (sink source : LocationPayload)
    (hsink : r.sink = some sink) (hsource : r.source = some source)
    (hloc : ∀ st ∈ r.path, st.location ≠ none) :
    (r.path = [] → format_finding_as_prompt r =
      some (promptHeader r sink source ++ "No data flow path available.\n" ++ promptTail)) ∧
    (r.path ≠ [] → format_finding_as_prompt r =
      some (promptHeader r sink source ++
        String.join (r.path.mapIdx (fun k st => stepText k st)) ++ promptTail)) ∧
    pyStrOpt none = "None" ∧ pyIntOpt none = "None" := by
  refine ⟨?_, ?_, rfl, rfl⟩
  · intro hpath
    simp [format_finding_as_prompt, hsink, hsource, pathSection, hpath]
  · intro hpath
    have hsec : pathSection r.path =
        some (String.join (r.path.mapIdx (fun k st => stepText k st))) := by
      cases hp : r.path with
      | nil => exact absurd hp hpath
      | cons st sts =>
        have := pathLines_join (st :: sts) 0 (by rw [← hp]; exact hloc)
        simp only [pathSection]
        rw [this]
        simp
    simp [format_finding_as_prompt, hsink, hsource, hsec]

/-- Concrete instance of the amended C4 theorem: a record with empty path
and all-null fields renders the fallback sentence and `None` placeholders. -/
theorem format_finding_renders_witness :
    format_finding_as_prompt
      ⟨0, none, none, none,
        some ⟨none, none, none, none, none, none⟩,
        some ⟨none, none, none, none, none, none⟩, []⟩ =
      some (promptHeader
          ⟨0, none, none, none,
            some ⟨none, none, none, none, none, none⟩,
            some ⟨none, none, none, none, none, none⟩, []⟩
          ⟨none, none, none, none, none, none⟩ ⟨none, none, none, none, none, none⟩ ++
        "No data flow path available.\n" ++ promptTail) :=
  (format_finding_renders _ _ _ rfl rfl (by simp)).1 rfl

set_option maxRecDepth 100000 in
/-- C4 counterexample: the Record Builder emits records whose `sink` or
`source` is null (no locations in the result), and on those the formatter
raises an `AttributeError` instead of rendering anything; and a record with
a null rule id, score, line and snippets renders the text `None`, not the
claimed `"N/A"` placeholder. -/
theorem format_finding_cex :
    extract_context_records
        ⟨[⟨[⟨none, none, none, [], [], []⟩,
            ⟨none, none, none,
              [⟨some ⟨some "a.py", none, none, none, none⟩, none⟩],
              [⟨some ⟨some "a.py", none, none, none, none⟩, none⟩], []⟩]⟩]⟩
        [] 5 none =
      .ok [⟨0, none, none, none, none, none, []⟩,
           ⟨1, none, none, none,
             some ⟨some "a.py", none, none, none, none, none⟩,
             some ⟨some "a.py", none, none, none, none, none⟩, []⟩] ∧
    format_finding_as_prompt ⟨0, none, none, none, none, none, []⟩ = none ∧
    format_finding_as_prompt
        ⟨1, none, none, none,
          some ⟨some "a.py", none, none, none, none, none⟩,
          some ⟨some "a.py", none, none, none, none, none⟩, []⟩ =
      some ("You’re triaging shell-command injection alerts.\n\nRule: None\nScore: None" ++
        "\nFile: a.py\nLine: None\n\nSink (where the command is executed):\n```\nNone\n```" ++
        "\n\nSource (where the input originates):\n```\nNone\n```" ++
        "\n\nTaint Path (data flow from source to sink):\n" ++
        "No data flow path available.\n" ++ promptTail) :=
  ⟨rfl, rfl, by decide⟩

end ResultInspector

namespace Gemini

/-- Histories passed to `generate_content` grow by exactly the previous
model reply and the next user turn: each call resends the entire history of
the previous call. -/
theorem chatLoop_sends_chain (gen : List Turn → String) :
    ∀ (inputs : List String) (hist : List Turn),
      (∀ h0, ((chatLoop gen hist inputs).2.2.1)[0]? = some h0 →
        ∃ u, h0 = hist ++ [⟨.user, u⟩]) ∧
      (∀ (k : Nat) (a b : List Turn), ((chatLoop gen hist inputs).2.2.1)[k]? = some a →
        ((chatLoop gen hist inputs).2.2.1)[k + 1]? = some b →
        ∃ u, b = a ++ [⟨.model, gen a⟩, ⟨.user, u⟩]) := by
  intro inputs
  induction inputs with
  | nil =>
    intro hist
    refine ⟨fun h0 hh => ?_, fun k a b ha hb => ?_⟩ <;> simp [chatLoop] at *
  | cons s rest ih =>
    intro hist
    by_cases hq : controlToken s = "quit"
    · refine ⟨fun h0 hh => ?_, fun k a b ha hb => ?_⟩ <;> simp [chatLoop, hq] at *
    · by_cases hn : controlToken s = "next"
      · refine ⟨fun h0 hh => ?_, fun k a b ha hb => ?_⟩ <;> simp [chatLoop, hq, hn] at *
      · have hloop : (chatLoop gen hist (s :: rest)).2.2.1 =
            (hist ++ [⟨.user, s⟩]) ::
              (chatLoop gen
                (hist ++ [⟨.user, s⟩] ++ [⟨.model, gen (hist ++ [⟨.user, s⟩])⟩])
                rest).2.2.1 := by
          simp [chatLoop, hq, hn]
        constructor
        · intro h0 hh
          rw [hloop] at hh
          simp only [List.getElem?_cons_zero, Option.some.injEq] at hh
          exact ⟨s, hh.symm⟩
        · intro k a b ha hb
          rw [hloop] at ha hb
          cases k with
          | zero =>
            simp only [List.getElem?_cons_zero, Option.some.injEq] at ha
            simp only [List.getElem?_cons_succ] at hb
            obtain ⟨u, hu⟩ := (ih (hist ++ [⟨.user, s⟩] ++
              [⟨.model, gen (hist ++ [⟨.user, s⟩])⟩])).1 b hb
            refine ⟨u, ?_⟩
            rw [hu, ← ha]
            simp
          | succ k' =>
            simp only [List.getElem?_cons_succ] at ha hb
            exact (ih _).2 k' a b ha hb

/-- C8: a line whose stripped, lowercased form is `quit` raises the
program-level exit immediately (the whole run stops, later findings are
never started); `next` ends only the current session (the run continues
with the next finding on the remaining script); any other line is sent as
the next turn, each call to the model receiving the full prior history —
every send extends the previous send by exactly its model reply plus the
new user turn. -/
theorem chat_control_tokens (gen : List Turn → String) (hist : List Turn)
    (s : String) (rest : List String) (p : String) (ps inputs scriptRest : List String)
    (hf : List Turn) (sends : List (List Turn)) :
    (controlToken s = "quit" →
      chatLoop gen hist (s :: rest) = (.quitAll, hist, [], rest)) ∧
    (controlToken s = "next" →
      chatLoop gen hist (s :: rest) = (.nextFinding, hist, [], rest)) ∧
    (controlToken s ≠ "quit" → controlToken s ≠ "next" →
      chatLoop gen hist (s :: rest) =
        ((chatLoop gen (hist ++ [⟨.user, s⟩, ⟨.model, gen (hist ++ [⟨.user, s⟩])⟩]) rest).1,
         (chatLoop gen (hist ++ [⟨.user, s⟩, ⟨.model, gen (hist ++ [⟨.user, s⟩])⟩]) rest).2.1,
         (hist ++ [⟨.user, s⟩]) ::
           (chatLoop gen (hist ++ [⟨.user, s⟩, ⟨.model, gen (hist ++ [⟨.user, s⟩])⟩]) rest).2.2.1,
         (chatLoop gen (hist ++ [⟨.user, s⟩, ⟨.model, gen (hist ++ [⟨.user, s⟩])⟩]) rest).2.2.2)) ∧
    (start_chat_session gen p inputs = (.quitAll, hf, sends, scriptRest) →
      runFindings gen (p :: ps) inputs = ⟨true, 1, sends, ps.length⟩) ∧
    (start_chat_session gen p inputs = (.nextFinding, hf, sends, scriptRest) →
      runFindings gen (p :: ps) inputs =
        ⟨(runFindings gen ps scriptRest).quit,
         (runFindings gen ps scriptRest).sessionsRun + 1,
         sends ++ (runFindings gen ps scriptRest).sends,
         (runFindings gen ps scriptRest).unstarted⟩) ∧
    (∀ (k : Nat) (a b : List Turn), ((chatLoop gen hist inputs).2.2.1)[k]? = some a →
      ((chatLoop gen hist inputs).2.2.1)[k + 1]? = some b →
      ∃ u, b = a ++ [⟨.model, gen a⟩, ⟨.user, u⟩]) ∧
    (∀ h0, ((chatLoop gen hist inputs).2.2.1)[0]? = some h0 →
      ∃ u, h0 = hist ++ [⟨.user, u⟩]) := by
  refine ⟨?_, ?_, ?_, ?_, ?_, (chatLoop_sends_chain gen inputs hist).2,
    (chatLoop_sends_chain gen inputs hist).1⟩
  · intro hq
    simp [chatLoop, hq]
  · intro hn
    simp [chatLoop, hn]
  · intro hq hn
    simp [chatLoop, hq, hn]
  · intro h
    simp [runFindings, h]
  · intro h
    simp [runFindings, h]

/-- Concrete instance of the C8 control-token theorem: `" QuIt "` exits the
whole run at once with the second finding never started; `"next"` advances
to the next finding. -/
theorem chat_control_tokens_witness :
    chatLoop (fun _ => "ok") [] [" QuIt ", "lost"] = (.quitAll, [], [], ["lost"]) ∧
    chatLoop (fun _ => "ok") [] ["next", "lost"] = (.nextFinding, [], [], ["lost"]) ∧
    runFindings (fun _ => "ok") ["p1", "p2"] [" QuIt ", "lost"] =
      ⟨true, 1, [[⟨.user, "p1"⟩]], 1⟩ := by
  have h1 := (chat_control_tokens (fun _ => "ok") [] " QuIt " ["lost"] "p1" ["p2"]
    [" QuIt ", "lost"] ["lost"] [⟨.user, "p1"⟩, ⟨.model, "ok"⟩] [[⟨.user, "p1"⟩]]).1
    (by decide)
  have h2 := (chat_control_tokens (fun _ => "ok") [] "next" ["lost"] "p1" ["p2"]
    ["next", "lost"] ["lost"] [⟨.user, "p1"⟩, ⟨.model, "ok"⟩] [[⟨.user, "p1"⟩]]).2.1
    (by decide)
  have h3 := (chat_control_tokens (fun _ => "ok") [] " QuIt " ["lost"] "p1" ["p2"]
    [" QuIt ", "lost"] ["lost"] [⟨.user, "p1"⟩, ⟨.model, "ok"⟩] [[⟨.user, "p1"⟩]]).2.2.2.1
    (by decide)
  exact ⟨h1, h2, by rw [h3]; rfl⟩

end Gemini

namespace JsonModel

theorem charOfNat_toNat (n : Nat) (h : Nat.isValidChar n) : (Char.ofNat n).toNat = n := by
  unfold Char.ofNat
  rw [dif_pos h]
  rfl

theorem digitChar_toNat (d : Nat) (hd : d < 10) : (digitChar d).toNat = 48 + d :=
  charOfNat_toNat _ (Or.inl (by omega))

theorem isDigitCh_digitChar (d : Nat) (hd : d < 10) : isDigitCh (digitChar d) = true := by
  simp [isDigitCh, digitChar_toNat d hd]
  omega

theorem skipWs_cons (c : Char) (cs : List Char) (h : isWsCh c = false) :
    skipWs (c :: cs) = c :: cs := by
  simp [skipWs, List.dropWhile, h]

theorem skipWs_space (cs : List Char) : skipWs (' ' :: cs) = skipWs cs := by
  simp [skipWs, List.dropWhile, isWsCh]

theorem natChars_head (n : Nat) : ∃ c cs, natChars n = c :: cs ∧ isDigitCh c = true := by
  induction n using Nat.strong_induction_on with
  | _ n ih =>
    rw [natChars]
    by_cases h : n < 10
    · rw [if_pos h]
      exact ⟨digitChar n, [], rfl, isDigitCh_digitChar n h⟩
    · rw [if_neg h]
      obtain ⟨c, cs, hc, hd⟩ := ih (n / 10) (Nat.div_lt_self (by omega) (by omega))
      exact ⟨c, cs ++ [digitChar (n % 10)], by rw [hc]; rfl, hd⟩

theorem digitsAux_stop (acc : Nat) (rest : List Char) (h : startsDigit rest = false) :
    digitsAux acc rest = (acc, rest) := by
  cases rest with
  | nil => rfl
  | cons c cs =>
    simp only [startsDigit] at h
    simp [digitsAux, h]

theorem digitsAux_natChars (n : Nat) : ∀ (acc : Nat) (rest : List Char),
    digitsAux acc (natChars n ++ rest) =
      digitsAux (acc * 10 ^ (natChars n).length + n) rest := by
  induction n using Nat.strong_induction_on with
  | _ n ih =>
    intro acc rest
    by_cases h : n < 10
    · rw [natChars, if_pos h]
      have h1 : isDigitCh (digitChar n) = true := isDigitCh_digitChar n h
      have h2 : (digitChar n).toNat = 48 + n := digitChar_toNat n h
      simp only [List.singleton_append, digitsAux, h1, if_pos, h2, List.length_singleton]
      congr 1
      have : 48 + n - 48 = n := by omega
      rw [this]
      ring
    · rw [natChars, if_neg h]
      rw [List.append_assoc]
      rw [ih (n / 10) (Nat.div_lt_self (by omega) (by omega)) acc _]
      have hm : n % 10 < 10 := Nat.mod_lt _ (by omega)
      have h1 : isDigitCh (digitChar (n % 10)) = true := isDigitCh_digitChar _ hm
      have h2 : (digitChar (n % 10)).toNat = 48 + n % 10 := digitChar_toNat _ hm
      simp only [List.singleton_append, digitsAux, h1, if_pos, h2, List.length_append,
        List.length_singleton]
      congr 1
      have h3 : 48 + n % 10 - 48 = n % 10 := by omega
      rw [h3, pow_succ]
      have h4 := Nat.div_add_mod n 10
      ring_nf
      omega

theorem digit_ne_dash (c : Char) (h : isDigitCh c = true) : c ≠ '-' := by
  intro he
  subst he
  exact absurd h (by decide)

theorem parseNum_natChars (m : Nat) (rest : List Char) (hrest : startsDigit rest = false) :
    parseNum (natChars m ++ rest) = some ((m : Int), rest) := by
  obtain ⟨c, cs, hc, hd⟩ := natChars_head m
  have hne : c ≠ '-' := digit_ne_dash c hd
  have h1 : (natChars m ++ rest).head? = some c := by rw [hc]; rfl
  have h2 : startsDigit (natChars m ++ rest) = true := by
    rw [hc]
    simpa [startsDigit] using hd
  have h3 : digitsAux 0 (natChars m ++ rest) = (m, rest) := by
    rw [digitsAux_natChars, digitsAux_stop _ _ hrest]
    simp
  simp [parseNum, h1, h2, h3, hne]

theorem parseNum_intChars (n : Int) (rest : List Char) (hrest : startsDigit rest = false) :
    parseNum (intChars n ++ rest) = some (n, rest) := by
  cases n with
  | ofNat m => simpa [intChars] using parseNum_natChars m rest hrest
  | negSucc k =>
    obtain ⟨c, cs, hc, hd⟩ := natChars_head (k + 1)
    have h2 : startsDigit (natChars (k + 1) ++ rest) = true := by
      rw [hc]
      simpa [startsDigit] using hd
    have h3 : digitsAux 0 (natChars (k + 1) ++ rest) = (k + 1, rest) := by
      rw [digitsAux_natChars, digitsAux_stop _ _ hrest]
      simp
    have hcons : intChars (Int.negSucc k) ++ rest = '-' :: (natChars (k + 1) ++ rest) := rfl
    rw [hcons]
    simp only [parseNum, List.head?, List.tail, h2, h3, if_pos, Option.some.injEq,
      Prod.mk.injEq]
    rw [Int.negSucc_eq]
    push_cast
    ring_nf
    exact ⟨trivial, trivial⟩

end JsonModel

namespace JsonModel

theorem hexVal_hexDigit (d : Nat) (hd : d < 16) : hexVal (hexDigit d) = some d := by
  by_cases h : d < 10
  · have ht : (hexDigit d).toNat = 48 + d := by
      unfold hexDigit
      rw [if_pos h]
      exact charOfNat_toNat _ (Or.inl (by omega))
    simp [hexVal, ht]
    omega
  · have ht : (hexDigit d).toNat = 87 + d := by
      unfold hexDigit
      rw [if_neg h]
      exact charOfNat_toNat _ (Or.inl (by omega))
    have h1 : ¬(48 ≤ (hexDigit d).toNat ∧ (hexDigit d).toNat ≤ 57) := by omega
    have h2 : 97 ≤ (hexDigit d).toNat ∧ (hexDigit d).toNat ≤ 102 := by omega
    simp [hexVal, h1, h2]
    omega

/-- One escaped character parses back to the character, continuing into the
remaining input. -/
theorem parseStringBody_escapeChar (c : Char) (tail : List Char) :
    parseStringBody (escapeChar c ++ tail) =
      (parseStringBody tail).map (fun p => (c :: p.1, p.2)) := by
  by_cases h1 : c = '"'
  · subst h1
    show parseStringBody ('\\' :: '"' :: tail) = _
    rw [parseStringBody.eq_def]
    simp [unescapeChar]
  · by_cases h2 : c = '\\'
    · subst h2
      show parseStringBody ('\\' :: '\\' :: tail) = _
      rw [parseStringBody.eq_def]
      simp [unescapeChar]
    · by_cases h3 : c = '\n'
      · subst h3
        show parseStringBody ('\\' :: 'n' :: tail) = _
        rw [parseStringBody.eq_def]
        simp [unescapeChar]
      · by_cases h4 : c = '\t'
        · subst h4
          show parseStringBody ('\\' :: 't' :: tail) = _
          rw [parseStringBody.eq_def]
          simp [unescapeChar]
        · by_cases h5 : c = '\r'
          · subst h5
            show parseStringBody ('\\' :: 'r' :: tail) = _
            rw [parseStringBody.eq_def]
            simp [unescapeChar]
          · by_cases h6 : c = '\x08'
            · subst h6
              show parseStringBody ('\\' :: 'b' :: tail) = _
              rw [parseStringBody.eq_def]
              simp [unescapeChar]
            · by_cases h7 : c = '\x0c'
              · subst h7
                show parseStringBody ('\\' :: 'f' :: tail) = _
                rw [parseStringBody.eq_def]
                simp [unescapeChar]
              · by_cases h8 : c.toNat < 32
                · have hesc : escapeChar c ++ tail = '\\' :: 'u' :: '0' :: '0' ::
                      hexDigit (c.toNat / 16) :: hexDigit (c.toNat % 16) :: tail := by
                    simp [escapeChar, h1, h2, h3, h4, h5, h6, h7, h8]
                  rw [hesc]
                  have hh : hexVal (hexDigit (c.toNat / 16)) = some (c.toNat / 16) :=
                    hexVal_hexDigit _ (by omega)
                  have hl : hexVal (hexDigit (c.toNat % 16)) = some (c.toNat % 16) :=
                    hexVal_hexDigit _ (by omega)
                  rw [parseStringBody.eq_def]
                  have hz : hexVal '0' = some 0 := rfl
                  simp only [hh, hl, hz]
                  have hn : ((0 * 16 + 0) * 16 + c.toNat / 16) * 16 + c.toNat % 16 =
                      c.toNat := by omega
                  have hn2 : c.toNat / 16 * 16 + c.toNat % 16 = c.toNat := by omega
                  simp [hn, hn2, Char.ofNat_toNat]
                · have hesc : escapeChar c ++ tail = c :: tail := by
                    simp [escapeChar, h1, h2, h3, h4, h5, h6, h7, h8]
                  rw [hesc]
                  rw [parseStringBody.eq_def]
                  simp [h1, h2, h8]

/-- A fully escaped string followed by the closing quote parses back
exactly. -/
theorem parseStringBody_escape (l : List Char) (rest : List Char) :
    parseStringBody ((l.map escapeChar).flatten ++ '"' :: rest) = some (l, rest) := by
  induction l with
  | nil =>
    show parseStringBody ('"' :: rest) = some ([], rest)
    rw [parseStringBody.eq_def]
    simp
  | cons c cs ih =>
    rw [List.map_cons, List.flatten_cons, List.append_assoc, parseStringBody_escapeChar, ih]
    rfl

end JsonModel

namespace JsonModel

theorem jsize_pos : ∀ v : Json, 1 ≤ jsize v := by
  intro v
  cases v <;> simp [jsize]

theorem jsizeL_pos : ∀ xs : List Json, 1 ≤ jsizeL xs := by
  intro xs
  cases xs with
  | nil => simp [jsizeL]
  | cons x xs =>
    have := jsize_pos x
    simp [jsizeL]
    omega

theorem jsizeM_pos : ∀ kvs : List (String × Json), 1 ≤ jsizeM kvs := by
  intro kvs
  cases kvs with
  | nil => simp [jsizeM]
  | cons kv kvs =>
    have := jsize_pos kv.2
    simp [jsizeM]
    omega

/-- The first character a written JSON value can start with: never
whitespace and never a closing bracket or separator. -/
theorem writeJson_head (v : Json) : ∃ c cs, writeJson v = c :: cs ∧
    isWsCh c = false ∧ c ≠ ']' ∧ c ≠ '\x7d' ∧ c ≠ ',' := by
  have hfixed : ∀ c : Char, c = 'n' ∨ c = 't' ∨ c = 'f' ∨ c = '"' ∨ c = '[' ∨
      c = '\x7b' ∨ c = '-' →
      isWsCh c = false ∧ c ≠ ']' ∧ c ≠ '\x7d' ∧ c ≠ ',' := by
    rintro c (rfl | rfl | rfl | rfl | rfl | rfl | rfl) <;>
      exact ⟨rfl, by decide, by decide, by decide⟩
  cases v with
  | num n =>
    cases n with
    | ofNat m =>
      obtain ⟨c, cs, hc, hd⟩ := natChars_head m
      have hb : 48 ≤ c.toNat ∧ c.toNat ≤ 57 := by
        simp only [isDigitCh, Bool.and_eq_true, decide_eq_true_eq] at hd
        omega
      have key : ∀ d : Char, (48 ≤ d.toNat → d.toNat ≤ 57 → False) → c ≠ d :=
        fun d hd2 he => hd2 (he ▸ hb.1) (he ▸ hb.2)
      refine ⟨c, cs, hc, ?_, key _ (by decide), key _ (by decide), key _ (by decide)⟩
      cases hw : isWsCh c with
      | false => rfl
      | true =>
        exfalso
        simp only [isWsCh, Bool.or_eq_true, decide_eq_true_eq] at hw
        rcases hw with ((hw | hw) | hw) | hw <;> (subst hw; revert hb; decide)
    | negSucc k => exact ⟨'-', _, rfl, hfixed _ (by tauto)⟩
  | str s => exact ⟨'"', _, rfl, hfixed _ (by tauto)⟩
  | null => exact ⟨'n', _, rfl, hfixed _ (by tauto)⟩
  | bool b =>
    cases b with
    | true => exact ⟨'t', _, rfl, hfixed _ (by tauto)⟩
    | false => exact ⟨'f', _, rfl, hfixed _ (by tauto)⟩
  | arr xs => exact ⟨'[', _, rfl, hfixed _ (by tauto)⟩
  | obj kvs => exact ⟨'\x7b', _, rfl, hfixed _ (by tauto)⟩

theorem parseValue_ws (fuel : Nat) (cs : List Char) :
    parseValue fuel (' ' :: cs) = parseValue fuel cs := by
  cases fuel with
  | zero => rw [parseValue.eq_def, parseValue.eq_def]
  | succ f =>
    rw [parseValue.eq_def, parseValue.eq_def]
    simp only [skipWs_space]

theorem parseElems_ws (fuel : Nat) (cs : List Char) :
    parseElems fuel (' ' :: cs) = parseElems fuel cs := by
  cases fuel with
  | zero => rw [parseElems.eq_def, parseElems.eq_def]
  | succ f =>
    rw [parseElems.eq_def, parseElems.eq_def]
    simp only [parseValue_ws]

theorem parseMembers_ws (fuel : Nat) (cs : List Char) :
    parseMembers fuel (' ' :: cs) = parseMembers fuel cs := by
  cases fuel with
  | zero => rw [parseMembers.eq_def, parseMembers.eq_def]
  | succ f =>
    rw [parseMembers.eq_def, parseMembers.eq_def]
    simp only [skipWs_space]

end JsonModel

namespace JsonModel

theorem intChars_head (n : Int) : ∃ c cs, intChars n = c :: cs ∧
    (isDigitCh c = true ∨ c = '-') := by
  cases n with
  | ofNat m =>
    obtain ⟨c, cs, hc, hd⟩ := natChars_head m
    exact ⟨c, cs, hc, Or.inl hd⟩
  | negSucc k => exact ⟨'-', natChars (k + 1), rfl, Or.inr rfl⟩

theorem numHead_facts (c : Char) (h : isDigitCh c = true ∨ c = '-') :
    isWsCh c = false ∧ c ≠ 'n' ∧ c ≠ 't' ∧ c ≠ 'f' ∧ c ≠ '"' ∧ c ≠ '[' ∧ c ≠ '\x7b' := by
  have hcn : 45 ≤ c.toNat ∧ c.toNat ≤ 57 := by
    rcases h with h | h
    · simp only [isDigitCh, Bool.and_eq_true, decide_eq_true_eq] at h
      omega
    · subst h
      exact ⟨by decide, by decide⟩
  have key : ∀ d : Char, (45 ≤ d.toNat → d.toNat ≤ 57 → False) → c ≠ d :=
    fun d hd he => hd (he ▸ hcn.1) (he ▸ hcn.2)
  refine ⟨?_, key _ (by decide), key _ (by decide), key _ (by decide),
    key _ (by decide), key _ (by decide), key _ (by decide)⟩
  cases hw : isWsCh c with
  | false => rfl
  | true =>
    exfalso
    simp only [isWsCh, Bool.or_eq_true, decide_eq_true_eq] at hw
    rcases hw with ((hw | hw) | hw) | hw <;> (subst hw; revert hcn; decide)

/-- Unfolding of the value reader on a non-whitespace first character. -/
theorem parseValue_succ_cons (f : Nat) (c : Char) (cs : List Char) (h : isWsCh c = false) :
    parseValue (f + 1) (c :: cs) =
      (if c = 'n' then
        if cs.take 3 = ['u', 'l', 'l'] then some (.null, cs.drop 3) else none
      else if c = 't' then
        if cs.take 3 = ['r', 'u', 'e'] then some (.bool true, cs.drop 3) else none
      else if c = 'f' then
        if cs.take 4 = ['a', 'l', 's', 'e'] then some (.bool false, cs.drop 4) else none
      else if c = '"' then
        (parseStringBody cs).map fun p => (.str (String.mk p.1), p.2)
      else if c = '[' then
        if (skipWs cs).head? = some ']' then some (.arr [], (skipWs cs).tail)
        else (parseElems f (skipWs cs)).map fun p => (.arr p.1, p.2)
      else if c = '\x7b' then
        if (skipWs cs).head? = some '\x7d' then some (.obj [], (skipWs cs).tail)
        else (parseMembers f (skipWs cs)).map fun p => (.obj p.1, p.2)
      else (parseNum (c :: cs)).map fun p => (.num p.1, p.2)) := by
  rw [parseValue.eq_def]
  simp only [skipWs_cons c cs h]

end JsonModel

namespace JsonModel

/-- Unfolding of the array-element reader at positive fuel. -/
theorem parseElems_succ (f : Nat) (input : List Char) :
    parseElems (f + 1) input =
      ((parseValue (f + 1) input).bind fun pv =>
        let r2 := skipWs pv.2
        if r2.head? = some ',' then
          (parseElems f r2.tail).map fun p => (pv.1 :: p.1, p.2)
        else if r2.head? = some ']' then some ([pv.1], r2.tail)
        else none) := by
  rw [parseElems.eq_def]

/-- Unfolding of the object-member reader at positive fuel, on an input
starting with a quote. -/
theorem parseMembers_succ_quote (f : Nat) (tl : List Char) :
    parseMembers (f + 1) ('"' :: tl) =
      ((parseStringBody tl).bind fun pk =>
        let r2 := skipWs pk.2
        if r2.head? = some ':' then
          (parseValue (f + 1) r2.tail).bind fun pv =>
            let r4 := skipWs pv.2
            if r4.head? = some ',' then
              (parseMembers f r4.tail).map fun p =>
                ((String.mk pk.1, pv.1) :: p.1, p.2)
            else if r4.head? = some '\x7d' then
              some ([(String.mk pk.1, pv.1)], r4.tail)
            else none
        else none) := by
  rw [parseMembers.eq_def]
  simp only [skipWs_cons '"' tl (by decide)]

/-- The reader inverts the writer: any written JSON value followed by any
remaining input parses back to exactly that value, given fuel at least its
size (for numbers the remaining input must not begin with a digit). -/
theorem parse_write : ∀ fuel : Nat,
    (∀ (v : Json) (rest : List Char), jsize v ≤ fuel →
      (∀ n : Int, v = .num n → startsDigit rest = false) →
      parseValue fuel (writeJson v ++ rest) = some (v, rest)) ∧
    (∀ (xs : List Json) (rest : List Char), xs ≠ [] → jsizeL xs ≤ fuel →
      parseElems fuel (writeElems xs ++ ']' :: rest) = some (xs, rest)) ∧
    (∀ (kvs : List (String × Json)) (rest : List Char), kvs ≠ [] → jsizeM kvs ≤ fuel →
      parseMembers fuel (writeMembers kvs ++ '\x7d' :: rest) = some (kvs, rest)) := by
  intro fuel
  induction fuel with
  | zero =>
    refine ⟨fun v rest hs _ => absurd hs (by have := jsize_pos v; omega),
      fun xs rest _ hs => absurd hs (by have := jsizeL_pos xs; omega),
      fun kvs rest _ hs => absurd hs (by have := jsizeM_pos kvs; omega)⟩
  | succ f ih =>
    obtain ⟨ihA, ihB, ihC⟩ := ih
    have hA : ∀ (v : Json) (rest : List Char), jsize v ≤ f + 1 →
        (∀ n : Int, v = .num n → startsDigit rest = false) →
        parseValue (f + 1) (writeJson v ++ rest) = some (v, rest) := by
      intro v rest hs hsep
      cases v with
      | null =>
        rw [show writeJson .null ++ rest = 'n' :: 'u' :: 'l' :: 'l' :: rest by
          simp [writeJson]]
        rw [parseValue_succ_cons f 'n' _ (by decide)]
        simp
      | bool b =>
        cases b with
        | false =>
          rw [show writeJson (.bool false) ++ rest = 'f' :: 'a' :: 'l' :: 's' :: 'e' :: rest by
            simp [writeJson]]
          rw [parseValue_succ_cons f 'f' _ (by decide)]
          simp
        | true =>
          rw [show writeJson (.bool true) ++ rest = 't' :: 'r' :: 'u' :: 'e' :: rest by
            simp [writeJson]]
          rw [parseValue_succ_cons f 't' _ (by decide)]
          simp
      | num n =>
        obtain ⟨c, cs, hc, hd⟩ := intChars_head n
        obtain ⟨hw, h1, h2, h3, h4, h5, h6⟩ := numHead_facts c hd
        have hwrite : writeJson (.num n) ++ rest = c :: (cs ++ rest) := by
          simp [writeJson, hc]
        rw [hwrite, parseValue_succ_cons f c _ hw]
        rw [if_neg h1, if_neg h2, if_neg h3, if_neg h4, if_neg h5, if_neg h6]
        have : c :: (cs ++ rest) = intChars n ++ rest := by simp [hc]
        rw [this, parseNum_intChars n rest (hsep n rfl)]
        rfl
      | str s =>
        have hwrite : writeJson (.str s) ++ rest =
            '"' :: ((s.data.map escapeChar).flatten ++ '"' :: rest) := by
          simp [writeJson, writeStr]
        rw [hwrite, parseValue_succ_cons f '"' _ (by decide)]
        rw [if_neg (by decide), if_neg (by decide), if_neg (by decide), if_pos rfl]
        rw [parseStringBody_escape]
        rfl
      | arr xs =>
        cases xs with
        | nil =>
          have hwrite : writeJson (.arr []) ++ rest = '[' :: ']' :: rest := by
            simp [writeJson, writeElems]
          rw [hwrite, parseValue_succ_cons f '[' _ (by decide)]
          simp [skipWs_cons ']' rest (by decide)]
        | cons x xs' =>
          obtain ⟨c0, cs0, hc0, hw0, hbr0, hbc0, hcm0⟩ := writeJson_head x
          have hwrite : writeJson (.arr (x :: xs')) ++ rest =
              '[' :: (writeElems (x :: xs') ++ ']' :: rest) := by
            simp [writeJson]
          rw [hwrite, parseValue_succ_cons f '[' _ (by decide)]
          rw [if_neg (by decide), if_neg (by decide), if_neg (by decide),
            if_neg (by decide), if_pos rfl]
          have hhead : writeElems (x :: xs') ++ ']' :: rest =
              c0 :: (cs0 ++ (match xs' with
                | [] => ']' :: rest
                | _ :: _ => ',' :: ' ' :: writeElems xs' ++ ']' :: rest)) := by
            cases xs' with
            | nil => simp [writeElems, hc0]
            | cons y ys => simp [writeElems, hc0]
          rw [hhead, skipWs_cons c0 _ hw0]
          rw [if_neg (by simp [hbr0])]
          rw [← hhead]
          have hsz : jsizeL (x :: xs') ≤ f := by
            simp only [jsize] at hs
            omega
          exact congrArg (Option.map _) (ihB (x :: xs') rest (by simp) hsz) |>.trans rfl
      | obj kvs =>
        cases kvs with
        | nil =>
          have hwrite : writeJson (.obj []) ++ rest = '\x7b' :: '\x7d' :: rest := by
            simp [writeJson, writeMembers]
          rw [hwrite, parseValue_succ_cons f '\x7b' _ (by decide)]
          simp [skipWs_cons '\x7d' rest (by decide)]
        | cons kv kvs' =>
          have hwrite : writeJson (.obj (kv :: kvs')) ++ rest =
              '\x7b' :: (writeMembers (kv :: kvs') ++ '\x7d' :: rest) := by
            simp [writeJson]
          rw [hwrite, parseValue_succ_cons f '\x7b' _ (by decide)]
          rw [if_neg (by decide), if_neg (by decide), if_neg (by decide),
            if_neg (by decide), if_neg (by decide), if_pos rfl]
          have htl : writeMembers (kv :: kvs') ++ '\x7d' :: rest =
              '"' :: ((kv.1.data.map escapeChar).flatten ++ '"' ::
                (':' :: ' ' :: (writeJson kv.2 ++ (match kvs' with
                  | [] => '\x7d' :: rest
                  | _ :: _ => ',' :: ' ' :: (writeMembers kvs' ++ '\x7d' :: rest))))) := by
            cases kvs' with
            | nil => simp [writeMembers, writeStr]
            | cons kv2 kvs2 => simp [writeMembers, writeStr]
          rw [htl, skipWs_cons '"' _ (by decide)]
          rw [if_neg (by simp)]
          rw [← htl]
          have hsz : jsizeM (kv :: kvs') ≤ f := by
            simp only [jsize] at hs
            omega
          exact congrArg (Option.map _) (ihC (kv :: kvs') rest (by simp) hsz) |>.trans rfl
    refine ⟨hA, ?_, ?_⟩
    · intro xs rest hne hs
      cases xs with
      | nil => exact absurd rfl hne
      | cons x xs' =>
        rw [parseElems_succ]
        cases xs' with
        | nil =>
          have hw : writeElems [x] ++ ']' :: rest = writeJson x ++ ']' :: rest := by
            simp [writeElems]
          rw [hw]
          rw [hA x (']' :: rest)
            (by simp only [jsizeL] at hs; have := jsizeL_pos ([] : List Json); omega)
            (fun n _ => rfl)]
          simp [skipWs_cons ']' rest (by decide)]
        | cons y ys =>
          have hw : writeElems (x :: y :: ys) ++ ']' :: rest =
              writeJson x ++ (',' :: ' ' :: (writeElems (y :: ys) ++ ']' :: rest)) := by
            simp [writeElems]
          rw [hw]
          have hszx : jsize x ≤ f + 1 := by
            simp only [jsizeL] at hs
            have := jsizeL_pos (y :: ys)
            omega
          rw [hA x (',' :: ' ' :: (writeElems (y :: ys) ++ ']' :: rest)) hszx
            (fun n _ => rfl)]
          simp only [Option.some_bind]
          rw [skipWs_cons ',' _ (by decide), List.tail_cons, parseElems_ws]
          have hszr : jsizeL (y :: ys) ≤ f := by
            simp only [jsizeL] at hs ⊢
            have := jsize_pos x
            omega
          rw [ihB (y :: ys) rest (by simp) hszr]
          simp
    · intro kvs rest hne hs
      cases kvs with
      | nil => exact absurd rfl hne
      | cons kv kvs' =>
        have hszv : jsize kv.2 ≤ f + 1 := by
          simp only [jsizeM] at hs
          have := jsizeM_pos kvs'
          omega
        cases kvs' with
        | nil =>
          have hw : writeMembers [kv] ++ '\x7d' :: rest =
              '"' :: ((kv.1.data.map escapeChar).flatten ++ '"' ::
                (':' :: ' ' :: (writeJson kv.2 ++ '\x7d' :: rest))) := by
            simp [writeMembers, writeStr]
          rw [hw, parseMembers_succ_quote, parseStringBody_escape]
          simp only [Option.some_bind]
          rw [skipWs_cons ':' _ (by decide), List.tail_cons, parseValue_ws,
            hA kv.2 ('\x7d' :: rest) hszv (fun n _ => rfl)]
          simp only [Option.some_bind]
          rw [skipWs_cons '\x7d' rest (by decide)]
          have heta : String.mk kv.1.data = kv.1 := rfl
          simp [heta]
        | cons kv2 kvs2 =>
          have hw : writeMembers (kv :: kv2 :: kvs2) ++ '\x7d' :: rest =
              '"' :: ((kv.1.data.map escapeChar).flatten ++ '"' ::
                (':' :: ' ' :: (writeJson kv.2 ++ (',' :: ' ' ::
                  (writeMembers (kv2 :: kvs2) ++ '\x7d' :: rest))))) := by
            simp [writeMembers, writeStr]
          rw [hw, parseMembers_succ_quote, parseStringBody_escape]
          simp only [Option.some_bind]
          rw [skipWs_cons ':' _ (by decide), List.tail_cons, parseValue_ws,
            hA kv.2 (',' :: ' ' :: (writeMembers (kv2 :: kvs2) ++ '\x7d' :: rest)) hszv
              (fun n _ => rfl)]
          simp only [Option.some_bind]
          rw [skipWs_cons ',' _ (by decide), List.tail_cons, parseMembers_ws]
          have hszr : jsizeM (kv2 :: kvs2) ≤ f := by
            simp only [jsizeM] at hs ⊢
            have := jsize_pos kv.2
            omega
          rw [ihC (kv2 :: kvs2) rest (by simp) hszr]
          have heta : String.mk kv.1.data = kv.1 := rfl
          simp [heta]

end JsonModel

namespace JsonModel

mutual

theorem jsize_le_write : ∀ v : Json, jsize v ≤ (writeJson v).length
  | .null => by simp [jsize, writeJson]
  | .bool b => by cases b <;> simp [jsize, writeJson]
  | .num n => by
    obtain ⟨c, cs, hc, -⟩ := intChars_head n
    have hw : writeJson (.num n) = intChars n := by simp [writeJson]
    rw [hw, hc]
    simp [jsize]
  | .str s => by
    have hw : writeJson (.str s) = writeStr s := by simp [writeJson]
    rw [hw]
    simp [jsize, writeStr]
  | .arr xs => by
    have h := jsizeL_le_write xs
    have hw : writeJson (.arr xs) = '[' :: (writeElems xs ++ [']']) := by simp [writeJson]
    rw [hw]
    simp only [jsize, List.length_cons, List.length_append, List.length_singleton]
    omega
  | .obj kvs => by
    have h := jsizeM_le_write kvs
    have hw : writeJson (.obj kvs) = '\x7b' :: (writeMembers kvs ++ ['\x7d']) := by
      simp [writeJson]
    rw [hw]
    simp only [jsize, List.length_cons, List.length_append, List.length_singleton]
    omega

theorem jsizeL_le_write : ∀ xs : List Json, jsizeL xs ≤ (writeElems xs).length + 1
  | [] => by simp [jsizeL, writeElems]
  | [x] => by
    have h := jsize_le_write x
    have h0 : jsizeL [x] = jsize x + 1 := by simp [jsizeL]
    have h1 : writeElems [x] = writeJson x := by simp [writeElems]
    rw [h0, h1]
    omega
  | x :: y :: xs => by
    have h1 := jsize_le_write x
    have h2 := jsizeL_le_write (y :: xs)
    have h0 : jsizeL (x :: y :: xs) = jsize x + jsizeL (y :: xs) := by
      rw [jsizeL]
    have hw : (writeElems (x :: y :: xs)).length =
        (writeJson x).length + 2 + (writeElems (y :: xs)).length := by
      have : writeElems (x :: y :: xs) =
          writeJson x ++ ',' :: ' ' :: writeElems (y :: xs) := by
        simp [writeElems]
      rw [this]
      simp [List.length_append]
      omega
    rw [h0, hw]
    omega

theorem jsizeM_le_write : ∀ kvs : List (String × Json),
    jsizeM kvs ≤ (writeMembers kvs).length + 1
  | [] => by simp [jsizeM, writeMembers]
  | [kv] => by
    have h := jsize_le_write kv.2
    have h0 : jsizeM [kv] = jsize kv.2 + 1 := by simp [jsizeM]
    have h1 : (writeMembers [kv]).length =
        (writeStr kv.1).length + 2 + (writeJson kv.2).length := by
      have : writeMembers [kv] = writeStr kv.1 ++ (':' :: ' ' :: writeJson kv.2) := by
        simp [writeMembers]
      rw [this]
      simp [List.length_append]
      omega
    rw [h0, h1]
    omega
  | kv :: kv2 :: kvs => by
    have h1 := jsize_le_write kv.2
    have h2 := jsizeM_le_write (kv2 :: kvs)
    have h0 : jsizeM (kv :: kv2 :: kvs) = jsize kv.2 + jsizeM (kv2 :: kvs) := by
      rw [jsizeM]
    have hw : (writeMembers (kv :: kv2 :: kvs)).length =
        (writeStr kv.1).length + 4 + (writeJson kv.2).length +
          (writeMembers (kv2 :: kvs)).length := by
      have : writeMembers (kv :: kv2 :: kvs) =
          writeStr kv.1 ++ (':' :: ' ' :: (writeJson kv.2 ++
            (',' :: ' ' :: writeMembers (kv2 :: kvs)))) := by
        simp [writeMembers, List.append_assoc]
      rw [this]
      simp [List.length_append]
      omega
    rw [h0, hw]
    omega

end

theorem hexDigit_ne_nl (k : Nat) : hexDigit k ≠ '\n' := by
  intro he
  have ht := congrArg Char.toNat he
  unfold hexDigit at ht
  by_cases h : k < 10
  · rw [if_pos h, charOfNat_toNat _ (Or.inl (by omega)),
      show ('\n').toNat = 10 from rfl] at ht
    omega
  · rw [if_neg h] at ht
    by_cases hv : Nat.isValidChar (87 + k)
    · rw [charOfNat_toNat _ hv, show ('\n').toNat = 10 from rfl] at ht
      omega
    · unfold Char.ofNat at ht
      rw [dif_neg hv] at ht
      exact absurd ht (by decide)

theorem escapeChar_no_nl (c : Char) : '\n' ∉ escapeChar c := by
  unfold escapeChar
  split_ifs with h1 h2 h3 h4 h5 h6 h7 h8
  · decide
  · decide
  · decide
  · decide
  · decide
  · decide
  · decide
  · intro hmem
    simp only [List.mem_cons, List.not_mem_nil, or_false] at hmem
    rcases hmem with h | h | h | h | h | h
    · exact absurd h (by decide)
    · exact absurd h (by decide)
    · exact absurd h (by decide)
    · exact absurd h (by decide)
    · exact hexDigit_ne_nl _ h.symm
    · exact hexDigit_ne_nl _ h.symm
  · intro hmem
    simp only [List.mem_cons, List.not_mem_nil, or_false] at hmem
    exact h3 hmem.symm

theorem writeStr_no_nl (s : String) : '\n' ∉ writeStr s := by
  intro hmem
  rcases List.mem_cons.mp hmem with h | h
  · exact absurd h (by decide)
  · rcases List.mem_append.mp h with h2 | h2
    · rcases List.mem_flatten.mp h2 with ⟨l, hl, hin⟩
      rcases List.mem_map.mp hl with ⟨c, _, hc⟩
      subst hc
      exact escapeChar_no_nl c hin
    · rcases List.mem_singleton.mp h2 with h3
      exact absurd h3 (by decide)

theorem natChars_no_nl (n : Nat) : '\n' ∉ natChars n := by
  induction n using Nat.strong_induction_on with
  | _ n ih =>
    rw [natChars]
    by_cases h : n < 10
    · rw [if_pos h]
      intro hmem
      simp only [List.mem_singleton] at hmem
      have ht := congrArg Char.toNat hmem
      rw [digitChar_toNat n h, show ('\n').toNat = 10 from rfl] at ht
      omega
    · rw [if_neg h]
      intro hmem
      rcases List.mem_append.mp hmem with hl | hr
      · exact ih (n / 10) (Nat.div_lt_self (by omega) (by omega)) hl
      · simp only [List.mem_singleton] at hr
        have hm : n % 10 < 10 := Nat.mod_lt _ (by omega)
        have ht := congrArg Char.toNat hr
        rw [digitChar_toNat _ hm, show ('\n').toNat = 10 from rfl] at ht
        omega

theorem intChars_no_nl (n : Int) : '\n' ∉ intChars n := by
  cases n with
  | ofNat m => exact natChars_no_nl m
  | negSucc k =>
    intro hmem
    rcases List.mem_cons.mp hmem with h | h
    · exact absurd h (by decide)
    · exact natChars_no_nl _ h

mutual

theorem writeJson_no_nl : ∀ v : Json, '\n' ∉ writeJson v
  | .null => by decide
  | .bool b => by cases b <;> decide
  | .num n => intChars_no_nl n
  | .str s => writeStr_no_nl s
  | .arr xs => by
    intro hmem
    rcases List.mem_cons.mp hmem with h | h
    · exact absurd h (by decide)
    · rcases List.mem_append.mp h with h2 | h2
      · exact writeElems_no_nl xs h2
      · simp only [List.mem_singleton] at h2
        exact absurd h2 (by decide)
  | .obj kvs => by
    intro hmem
    rcases List.mem_cons.mp hmem with h | h
    · exact absurd h (by decide)
    · rcases List.mem_append.mp h with h2 | h2
      · exact writeMembers_no_nl kvs h2
      · simp only [List.mem_singleton] at h2
        exact absurd h2 (by decide)

theorem writeElems_no_nl : ∀ xs : List Json, '\n' ∉ writeElems xs
  | [] => by decide
  | [x] => writeJson_no_nl x
  | x :: y :: xs => by
    intro hmem
    rcases List.mem_append.mp hmem with h | h
    · exact writeJson_no_nl x h
    · rcases List.mem_cons.mp h with h2 | h2
      · exact absurd h2 (by decide)
      · rcases List.mem_cons.mp h2 with h3 | h3
        · exact absurd h3 (by decide)
        · exact writeElems_no_nl (y :: xs) h3

theorem writeMembers_no_nl : ∀ kvs : List (String × Json), '\n' ∉ writeMembers kvs
  | [] => by decide
  | [kv] => by
    intro hmem
    have hw : writeMembers [kv] =
        writeStr kv.1 ++ (':' :: ' ' :: writeJson kv.2) := by
      simp [writeMembers]
    rw [hw] at hmem
    rcases List.mem_append.mp hmem with h | h
    · exact writeStr_no_nl kv.1 h
    · rcases List.mem_cons.mp h with h2 | h2
      · exact absurd h2 (by decide)
      · rcases List.mem_cons.mp h2 with h3 | h3
        · exact absurd h3 (by decide)
        · exact writeJson_no_nl kv.2 h3
  | kv :: kv2 :: kvs => by
    intro hmem
    have hw : writeMembers (kv :: kv2 :: kvs) =
        writeStr kv.1 ++ (':' :: ' ' :: (writeJson kv.2 ++
          (',' :: ' ' :: writeMembers (kv2 :: kvs)))) := by
      simp [writeMembers, List.append_assoc]
    rw [hw] at hmem
    rcases List.mem_append.mp hmem with h | h
    · exact writeStr_no_nl kv.1 h
    · rcases List.mem_cons.mp h with h2 | h2
      · exact absurd h2 (by decide)
      · rcases List.mem_cons.mp h2 with h3 | h3
        · exact absurd h3 (by decide)
        · rcases List.mem_append.mp h3 with h4 | h4
          · exact writeJson_no_nl kv.2 h4
          · rcases List.mem_cons.mp h4 with h5 | h5
            · exact absurd h5 (by decide)
            · rcases List.mem_cons.mp h5 with h6 | h6
              · exact absurd h6 (by decide)
              · exact writeMembers_no_nl (kv2 :: kvs) h6

end

theorem parseLine_write (v : Json) : parseLine (writeJson v) = some v := by
  unfold parseLine
  have h := (parse_write ((writeJson v).length + 1)).1 v []
    (le_trans (jsize_le_write v) (Nat.le_succ _)) (fun _ _ => rfl)
  rw [List.append_nil] at h
  rw [h]
  rfl

theorem splitNl_append_line (l : List Char) (rest : List Char) (hl : '\n' ∉ l) :
    splitNl (l ++ '\n' :: rest) = l :: splitNl rest := by
  induction l with
  | nil => simp [splitNl]
  | cons c cs ih =>
    have hc : ¬(c = '\n') := fun h => hl (by simp [h])
    have hcs : '\n' ∉ cs := fun h => hl (by simp [h])
    simp only [List.cons_append, splitNl, List.append_eq, ih hcs, if_neg hc]

theorem splitNl_jsonl (recs : List ResultInspector.Record) :
    splitNl (jsonlOutput recs) =
      recs.map (fun r => writeJson (recordToJson r)) ++ [[]] := by
  induction recs with
  | nil => simp [jsonlOutput, splitNl]
  | cons r rs ih =>
    have hnl := writeJson_no_nl (recordToJson r)
    show splitNl ((writeJson (recordToJson r) ++ ['\n']) ++ jsonlOutput rs) = _
    rw [List.append_assoc, List.singleton_append, splitNl_append_line _ _ hnl, ih]
    rfl

/-- C9: writing each extracted record as one JSON object per line and
parsing the lines back is lossless: every line is newline-free, splitting
the output at newlines recovers exactly the per-record lines (plus the
empty trailing line), and parsing each line yields a JSON value
structurally identical to the record's (same keys, same nested
structure — in fact equal). -/
theorem jsonl_round_trip (recs : List ResultInspector.Record) :
    splitNl (jsonlOutput recs) =
      recs.map (fun r => writeJson (recordToJson r)) ++ [[]] ∧
    (∀ r ∈ recs, '\n' ∉ writeJson (recordToJson r)) ∧
    (∀ r ∈ recs, parseLine (writeJson (recordToJson r)) = some (recordToJson r)) :=
  ⟨splitNl_jsonl recs, fun r _ => writeJson_no_nl _, fun r _ => parseLine_write _⟩

/-- Concrete instance of the C9 round-trip at a one-record list. -/
theorem jsonl_round_trip_witness :
    parseLine (writeJson (recordToJson ⟨0, none, none, none, none, none, []⟩)) =
      some (recordToJson ⟨0, none, none, none, none, none, []⟩) :=
  (jsonl_round_trip [⟨0, none, none, none, none, none, []⟩]).2.2 _ (by simp)

end JsonModel
